import Mathlib

/-!
Verification of the tree-construction and merge engine of the
`qsettingsgenerator` tool (file `tools/settingsgenerator/settingsgenerator.cpp`).

The development embeds the node-tree data model (`NodeContentGroup` with
`NodeType` / `EntryType` / anonymous nested group children), the tree locator
`findContentGroup`, the node promoter `replaceNodeByEntry`, the flat-schema
translator (`convertFromConf` / `readCategory` / `readSection` / `readGroup` /
`readEntry`) and the import resolver `read_included_file`, and proves the
specified properties about them.

C++ pointers into the tree are modelled as index paths (`List Nat`) from the
tree root, one index per child-list step; pointer identity corresponds to path
equality.  In-place mutation through a pointer is modelled by rebuilding the
tree along the path (`modifyN`).  Thrown exceptions are modelled with
`Except`.
-/

namespace SettingsGen

/-- A child of a `NodeContentGroup`, mirroring the variant stored in
`NodeContentGroup::contentNodes`: a `NodeType` (named group node), an
`EntryType` (named entry with type, default value and translation data, which
may itself have children), or an anonymous nested `NodeContentGroup` (used for
grouped import results). -/
inductive ContentNode where
  | node (key : String) (children : List ContentNode)
  | entry (key : String) (type_ : String) (defaultValue : Option String)
      (tr : Option String) (children : List ContentNode)
  | group (children : List ContentNode)

namespace ContentNode

/-- The `contentNodes` of a child viewed as a `NodeContentGroup`
(`NodeType` and `EntryType` both extend `NodeContentGroup` in the generated
base class, and an anonymous group is one directly). -/
def childrenOf : ContentNode → List ContentNode
  | .node _ ch => ch
  | .entry _ _ _ _ ch => ch
  | .group ch => ch

/-- Replace the `contentNodes` of a child, keeping everything else. -/
def withChildren : ContentNode → List ContentNode → ContentNode
  | .node k _, ch => .node k ch
  | .entry k t d tr _, ch => .entry k t d tr ch
  | .group _, ch => .group ch

/-- The key of a named child (`NodeType` / `EntryType`); anonymous groups
have none. -/
def childKey : ContentNode → Option String
  | .node k _ => some k
  | .entry k _ _ _ _ => some k
  | .group _ => none

end ContentNode

open ContentNode

/-- The data of one `<Entry>` declaration of the flat `SettingsConfig`
dialect (`SettingsConfigBase::EntryType`): its slash-separated key, C++ type,
optional default value and optional translation data. -/
structure EntryDecl where
  key : String
  type_ : String
  defaultValue : Option String
  trdefault : Option String
  deriving Repr, DecidableEq

/-- The exceptions the engine can raise: `FileException` (file could not be
opened), `XmlException` (structural / parse error, carrying its message), and
an internal consistency failure (a `Q_ASSERT` or a library precondition
violation, which in C++ is an assertion failure or undefined behaviour). -/
inductive GenError where
  | fileError (path : String)
  | xmlError (msg : String)
  | internalError
  deriving Repr, DecidableEq

/-- Worker for `splitKey`: scan the characters, collecting the current
segment in reverse in `acc`; a separator (or the end of the string) emits the
collected segment unless it is empty — the skip-empty-parts semantics. -/
def splitSegsAux (sep : Char) : List Char → List Char → List String
  | [], acc => if acc = [] then [] else [String.mk acc.reverse]
  | c :: cs, acc =>
      if c = sep then
        (if acc = [] then [] else [String.mk acc.reverse]) ++ splitSegsAux sep cs []
      else splitSegsAux sep cs (c :: acc)

/-- `key.split(QLatin1Char('/'), QString::SkipEmptyParts)`: split on `/`,
dropping the empty parts produced by leading, trailing or doubled
separators. -/
def splitKey (k : String) : List String :=
  splitSegsAux '/' k.data []

/-- The path resolution performed at the start of `readEntry`
(`keyChain = entry.key.split('/', SkipEmptyParts); entryKey = keyChain.takeLast()`):
the intermediate segments plus the distinguished final segment.
`QList::takeLast` on an empty list is an assertion failure, modelled as
`none`. -/
def resolve (k : String) : Option (List String × String) :=
  match (splitKey k).getLast? with
  | none => none
  | some last => some ((splitKey k).dropLast, last)

/-- Worker for `findContentGroup`, iterating over the children of a content
group starting at child index `i`.  Scans the children in order: a `NodeType`
or `EntryType` whose key equals `key` is returned (with the `isEntry` flag set
exactly for a direct `EntryType` match); an anonymous nested group is searched
through transparently at its position — the C++ recursion passes no `isEntry`
out-parameter, so a match found inside an anonymous group is always reported
with the flag `false`. -/
def findCGAux : List ContentNode → String → Nat → Option (List Nat × Bool)
  | [], _, _ => none
  | .node k _ :: rest, key, i =>
      if k = key then some ([i], false) else findCGAux rest key (i + 1)
  | .entry k _ _ _ _ :: rest, key, i =>
      if k = key then some ([i], true) else findCGAux rest key (i + 1)
  | .group ch :: rest, key, i =>
      match findCGAux ch key 0 with
      | some pb => some (i :: pb.1, false)
      | none => findCGAux rest key (i + 1)

/-- `SettingsGenerator::findContentGroup`: search the children of a content
group for a child named `key`, returning the index path of the match (relative
to the given children list) together with the reported `isEntry` flag, or
`none` (`nullptr`). -/
def findCG (nodes : List ContentNode) (key : String) : Option (List Nat × Bool) :=
  findCGAux nodes key 0

/-- Follow an index path from a node, one child-list index per step.
The empty path addresses the node itself. -/
def getN : List Nat → ContentNode → Option ContentNode
  | [], c => some c
  | i :: q, c =>
      match (childrenOf c)[i]? with
      | some ci => getN q ci
      | none => none

/-- Apply `f` to the node addressed by the path, rebuilding the tree along
the way (the model of an in-place write through a C++ pointer). -/
def modifyN : List Nat → (ContentNode → ContentNode) → ContentNode → ContentNode
  | [], f, c => f c
  | i :: q, f, c =>
      match (childrenOf c)[i]? with
      | some ci => withChildren c ((childrenOf c).set i (modifyN q f ci))
      | none => c

/-- The children of the node addressed by the path (the dereference of a
`NodeContentGroup*`). -/
def childrenAtN (c : ContentNode) (p : List Nat) : List ContentNode :=
  match getN p c with
  | some x => childrenOf x
  | none => []

/-- `SettingsGenerator::replaceNodeByEntry`: scan the children for the
`NodeType` the target pointer (here: the relative index path `p`) refers to,
comparing by identity, and overwrite that slot with `e`; recurse through
anonymous nested groups, which is where multi-step target paths can point.
Returns the updated children list, or `none` (`nullptr`) when the identity is
not found — in particular when the target is not a `NodeType`. -/
def replaceNBE : List ContentNode → List Nat → ContentNode → Option (List ContentNode)
  | _, [], _ => none
  | nodes, i :: q, e =>
      match nodes[i]? with
      | none => none
      | some c =>
          match q with
          | [] =>
              match c with
              | .node _ _ => some (nodes.set i e)
              | _ => none
          | _ :: _ =>
              match c with
              | .group ch => (replaceNBE ch q e).map (fun ch2 => nodes.set i (.group ch2))
              | _ => none

/-- The final population step of `readEntry` (`nEntry->type = …;
nEntry->defaultValue = …; nEntry->tr = …`), applied through the
`static_cast<EntryType*>` pointer: overwrite the entry's data fields. -/
def populateFun (fe : EntryDecl) : ContentNode → ContentNode
  | .entry k _ _ _ ch => .entry k fe.type_ fe.defaultValue fe.trdefault ch
  | c => c

/-- `cGrp->contentNodes.append(…)` through a pointer: append a child to the
children of a node. -/
def appendChildF (c : ContentNode) : ContentNode → ContentNode :=
  fun x => withChildren x (childrenOf x ++ [c])

/-- One iteration of the `keyChain` walk of `readEntry`: the state is the
whole tree (rooted in an anonymous group standing for `targetRootNode`)
together with the path `cGrp` points at.  Locate a child named `key`; if none
exists, create and append a fresh `NodeType`; descend into the located or
created child. -/
def stepChain (st : ContentNode × List Nat) (key : String) : ContentNode × List Nat :=
  let ch := childrenAtN st.1 st.2
  match findCG ch key with
  | some pb => (st.1, st.2 ++ pb.1)
  | none => (modifyN st.2 (appendChildF (.node key [])) st.1, st.2 ++ [ch.length])

/-- The body of `readEntry` after key resolution: walk (creating `NodeType`s
as needed) along `keyChain`, then at the final segment: append a fresh
`EntryType` when nothing is found; raise the duplicate-entry `XmlException`
when a direct `EntryType` is found; otherwise promote the found node via
`replaceNodeByEntry` (a failure of which is `Q_ASSERT(eGrp)`, modelled as
`internalError`).  Finally populate the entry's type, default value and
translation fields. -/
def insertResolved (fe : EntryDecl) (keyChain : List String) (entryKey : String)
    (t : List ContentNode) : Except GenError (List ContentNode) :=
  let st := keyChain.foldl stepChain (ContentNode.group t, ([] : List Nat))
  let ch := childrenAtN st.1 st.2
  match findCG ch entryKey with
  | none =>
      let r1 := modifyN st.2 (appendChildF (.entry entryKey "" none none [])) st.1
      .ok (childrenOf (modifyN (st.2 ++ [ch.length]) (populateFun fe) r1))
  | some (p, isEntry) =>
      if isEntry then
        .error (.xmlError ("Found duplicated entry with key: " ++ fe.key))
      else
        let eCh := childrenAtN st.1 (st.2 ++ p)
        match replaceNBE ch p (.entry entryKey "" none none eCh) with
        | none => .error .internalError
        | some ch2 =>
            let r1 := modifyN st.2 (fun x => withChildren x ch2) st.1
            .ok (childrenOf (modifyN (st.2 ++ p) (populateFun fe) r1))

/-- `SettingsGenerator::readEntry`: insert one flat-dialect entry declaration
into the node tree — resolve the key into `keyChain` segments plus the final
`entryKey`, then run the locate-or-create insertion `insertResolved`. -/
def readEntry (fe : EntryDecl) (t : List ContentNode) : Except GenError (List ContentNode) :=
  match resolve fe.key with
  | none => .error .internalError
  | some (keyChain, entryKey) => insertResolved fe keyChain entryKey t

/-- An element of the flat `SettingsConfig` dialect: the variant of a content
list of `SettingsConfigBase::SettingsConfigType` and of the layer content
groups.  `otherE` stands for any further variant alternative the generated
base class may hold (the `else` branches of the readers). -/
inductive ConfElement where
  | categoryE (content : List ConfElement)
  | sectionE (content : List ConfElement)
  | groupE (content : List ConfElement)
  | entryE (e : EntryDecl)
  | otherE

/-- `SettingsGenerator::readGroup`: a flat-dialect group hosts only entry
declarations; any other child raises the structural `XmlException`. -/
def readGroup : List ConfElement → List ContentNode → Except GenError (List ContentNode)
  | [], t => .ok t
  | .entryE e :: rest, t => do readGroup rest (← readEntry e t)
  | _ :: _, _ => .error (.xmlError "Unexpected child element in included SettingsConf Group")

/-- `SettingsGenerator::readSection`: a flat-dialect section hosts groups and
entries; any other child raises the structural `XmlException`. -/
def readSection : List ConfElement → List ContentNode → Except GenError (List ContentNode)
  | [], t => .ok t
  | .groupE ch :: rest, t => do readSection rest (← readGroup ch t)
  | .entryE e :: rest, t => do readSection rest (← readEntry e t)
  | _ :: _, _ => .error (.xmlError "Unexpected child element in included SettingsConf Section")

/-- `SettingsGenerator::readCategory`: a flat-dialect category hosts sections,
groups and entries; any other child raises the structural `XmlException`
(message with the typo as in the source). -/
def readCategory : List ConfElement → List ContentNode → Except GenError (List ContentNode)
  | [], t => .ok t
  | .sectionE ch :: rest, t => do readCategory rest (← readSection ch t)
  | .groupE ch :: rest, t => do readCategory rest (← readGroup ch t)
  | .entryE e :: rest, t => do readCategory rest (← readEntry e t)
  | _ :: _, _ => .error (.xmlError "Unexpected child element in included SettingsConf Categoy")

/-- `SettingsGenerator::convertFromConf`: translate a parsed flat-dialect
document into the node tree by dispatching each top-level element. -/
def convertFromConf : List ConfElement → List ContentNode → Except GenError (List ContentNode)
  | [], t => .ok t
  | .categoryE ch :: rest, t => do convertFromConf rest (← readCategory ch t)
  | .sectionE ch :: rest, t => do convertFromConf rest (← readSection ch t)
  | .groupE ch :: rest, t => do convertFromConf rest (← readGroup ch t)
  | .entryE e :: rest, t => do convertFromConf rest (← readEntry e t)
  | .otherE :: _, _ => .error (.xmlError "Unexpected child element in included SettingsConf")

/-- One `<Import>` declaration (`SettingsGeneratorBase::ImportType`): whether
a load failure is fatal, the (already resolved) file path, and the optional
dotted root-path selecting a sub-tree of the imported document. -/
structure ImportType where
  required : Bool
  importPath : String
  rootNode : Option String

/-- Modelled from the spec: the outcome of loading and parsing an imported
document — the boundary of the excluded filesystem / tokenizer collaborators
in `read_included_file`'s `try` block, whose exception classes are declared
in the generated base header that is outside the sources here.  Following the
spec's error taxonomy (§7), a resource error (`FileException`: the file could
not be opened — or a nested required import failed) and a structural error
(`XmlException`, raised while parsing or converting the document) are
distinct kinds, matching the code's distinct throw sites; the third outcome
is the successfully parsed node tree (of either dialect, the flat one
already run through the translator). -/
inductive LoadResult where
  | fileError (path : String)
  | parseError (msg : String)
  | parsed (tree : List ContentNode)

/-- The root-path descent loop of `read_included_file`: for each segment,
`cGrp = findContentGroup(cGrp, key)`, giving up with `none` as soon as a
segment does not resolve. -/
def descendRoot : List String → List ContentNode → Option (List ContentNode)
  | [], cur => some cur
  | k :: ks, cur =>
      match findCG cur k with
      | none => none
      | some pb => descendRoot ks (childrenAtN (.group cur) pb.1)

/-- `SettingsGenerator::read_included_file` (after the path of the import has
been resolved): load and parse the document through the collaborator `fs`;
an `XmlException` propagates — the `catch` clause only catches
`FileException`, which is fatal exactly for a required import and otherwise
logged as a warning, leaving `data` unchanged.  On success, descend the
optional root-path; an unresolved segment makes the import contribute
nothing (`data` unchanged); otherwise `data = std::move(*cGrp)`. -/
def read_included_file (fs : String → LoadResult) (imp : ImportType)
    (data : List ContentNode) : Except GenError (List ContentNode) :=
  match fs imp.importPath with
  | .fileError p => if imp.required then .error (.fileError p) else .ok data
  | .parseError m => .error (.xmlError m)
  | .parsed tree =>
      match imp.rootNode with
      | none => .ok tree
      | some rn =>
          match descendRoot (splitKey rn) tree with
          | none => .ok data
          | some sub => .ok sub

/-! ### Derived notions used to state the specified properties -/

/-- The match candidates `findContentGroup` considers, in the order it
considers them: every named child with its index path and the `isEntry` flag
the search would report for it (`true` exactly for a direct `EntryType`
child; matches inside anonymous nested groups are reported `false`). -/
def candidatesAux : List ContentNode → Nat → List (List Nat × String × Bool)
  | [], _ => []
  | .node k _ :: rest, i => ([i], k, false) :: candidatesAux rest (i + 1)
  | .entry k _ _ _ _ :: rest, i => ([i], k, true) :: candidatesAux rest (i + 1)
  | .group ch :: rest, i =>
      (candidatesAux ch 0).map (fun c => (i :: c.1, c.2.1, false)) ++ candidatesAux rest (i + 1)

/-- The candidate list of a children list, starting at index 0. -/
def candidates (nodes : List ContentNode) : List (List Nat × String × Bool) :=
  candidatesAux nodes 0

mutual

/-- The key-segment paths of all `EntryType` nodes in the subtree of one
child, in tree (pre-)order; anonymous groups contribute their content
without a segment of their own. -/
def nodePaths : ContentNode → List (List String)
  | .node k ch => (entryPathsL ch).map (fun p => k :: p)
  | .entry k _ _ _ ch => [k] :: (entryPathsL ch).map (fun p => k :: p)
  | .group ch => entryPathsL ch

/-- The key-segment paths of all `EntryType` nodes reachable from a children
list, in tree (pre-)order. -/
def entryPathsL : List ContentNode → List (List String)
  | [] => []
  | c :: rest => nodePaths c ++ entryPathsL rest

end

mutual

/-- No anonymous nested group occurs in the subtree of this child. -/
def gfN : ContentNode → Bool
  | .node _ ch => gfL ch
  | .entry _ _ _ _ ch => gfL ch
  | .group _ => false

/-- No anonymous nested group occurs anywhere in the children list. -/
def gfL : List ContentNode → Bool
  | [] => true
  | c :: rest => gfN c && gfL rest

end

/-- The keys of the named children of a children list, in order. -/
def keysOf (nodes : List ContentNode) : List String :=
  nodes.filterMap childKey

mutual

/-- Key uniqueness below this child (see `uniqL`). -/
def uniqN : ContentNode → Bool
  | .node _ ch => uniqL ch
  | .entry _ _ _ _ ch => uniqL ch
  | .group ch => uniqL ch

/-- Within every content group of the tree, no two named children share a
key. -/
def uniqL : List ContentNode → Bool
  | [] => true
  | c :: rest =>
      uniqN c &&
      (match childKey c with
       | some k => !((keysOf rest).contains k)
       | none => true) &&
      uniqL rest

end

/-- The keys of the named children traversed along an index path (the empty
path traverses nothing); `none` when the path leaves the tree or passes
through an anonymous (keyless) group. -/
def keysAlongN : List Nat → ContentNode → Option (List String)
  | [], _ => some []
  | i :: q, c =>
      match (childrenOf c)[i]? with
      | some ci =>
          match childKey ci with
          | some k => (keysAlongN q ci).map (fun ks => k :: ks)
          | none => none
      | none => none

/-- The entry keys declared in a flat-dialect element list, in document
order, descending through the category/section/group layers. -/
def declaredKeys : List ConfElement → List String
  | [] => []
  | .categoryE ch :: rest => declaredKeys ch ++ declaredKeys rest
  | .sectionE ch :: rest => declaredKeys ch ++ declaredKeys rest
  | .groupE ch :: rest => declaredKeys ch ++ declaredKeys rest
  | .entryE e :: rest => e.key :: declaredKeys rest
  | .otherE :: rest => declaredKeys rest

/-- A dotted key normalized by split-and-skip-empty resolution: the segments
of `splitKey` joined back with `/`. -/
def normKey (k : String) : String :=
  String.intercalate "/" (splitKey k)

@[simp]
lemma childrenOf_withChildren (c : ContentNode) (l : List ContentNode) :
    childrenOf (withChildren c l) = l := by
  cases c <;> rfl

@[simp]
lemma childKey_withChildren (c : ContentNode) (l : List ContentNode) :
    childKey (withChildren c l) = childKey c := by
  cases c <;> rfl

/-! ### C7: the path resolver -/

/-- C7: `resolve` splits a key on `/`, discards the empty segments produced
by leading, trailing or doubled separators, and returns the remaining
segments minus the last as intermediate segments plus the last as the final
segment; in particular `resolve "a/b/c" = (["a","b"], "c")`,
`resolve "solo" = ([], "solo")` and `resolve "/a//b/" = (["a"], "b")`. -/
theorem resolve_spec :
    (resolve "a/b/c" = some (["a", "b"], "c") ∧
     resolve "solo" = some ([], "solo") ∧
     resolve "/a//b/" = some (["a"], "b")) ∧
    ∀ (k : String) (segs : List String) (last : String),
      splitKey k = segs ++ [last] → resolve k = some (segs, last) := by
  refine ⟨⟨rfl, rfl, rfl⟩, ?_⟩
  intro k segs last h
  simp [resolve, h, List.getLast?_concat]

/-- Witness for C7 at the concrete key `"a/b/c"`. -/
theorem resolve_spec_witness :
    splitKey "a/b/c" = ["a", "b"] ++ ["c"] ∧ resolve "a/b/c" = some (["a", "b"], "c") :=
  ⟨rfl, resolve_spec.2 "a/b/c" ["a", "b"] "c" rfl⟩

/-! ### C1: import failure handling -/

/-- C1 counterexample: an *optional* import whose document fails to parse
does not contribute nothing with a warning — the `XmlException` is not a
`FileException`, so the `catch` clause of `read_included_file` does not
downgrade it and the whole run aborts. -/
theorem optional_import_parse_failure_aborts :
    read_included_file (fun _ => .parseError "malformed document")
      ⟨false, "sub.xml", none⟩ [] = .error (.xmlError "malformed document") := rfl

/-- C1 amended: a *load* (file-open) failure aborts the run exactly when
the import is required and otherwise is logged and contributes nothing, but
a *parse* failure always propagates and aborts the run, required or not. -/
theorem import_failure_policy :
    ∀ (fs : String → LoadResult) (imp : ImportType) (data : List ContentNode),
      (∀ p, fs imp.importPath = .fileError p →
        read_included_file fs imp data =
          if imp.required then .error (.fileError p) else .ok data) ∧
      (∀ m, fs imp.importPath = .parseError m →
        read_included_file fs imp data = .error (.xmlError m)) := by
  intro fs imp data
  constructor <;> intro s h <;> simp [read_included_file, h]

/-- Witness for C1 (amended) at concrete imports: an optional import with an
unopenable file succeeds with the tree unchanged, a required one aborts, and
an optional import with a parse failure aborts. -/
theorem import_failure_policy_witness :
    read_included_file (fun _ => .fileError "f.xml") ⟨false, "f.xml", none⟩ [] = .ok [] ∧
    read_included_file (fun _ => .fileError "f.xml") ⟨true, "f.xml", none⟩ [] =
      .error (.fileError "f.xml") ∧
    read_included_file (fun _ => .parseError "bad") ⟨false, "g.xml", none⟩ [] =
      .error (.xmlError "bad") := by
  refine ⟨?_, ?_, (import_failure_policy (fun _ => .parseError "bad") ⟨false, "g.xml", none⟩ []).2 "bad" rfl⟩
  · simpa using (import_failure_policy (fun _ => .fileError "f.xml") ⟨false, "f.xml", none⟩ []).1 "f.xml" rfl
  · simpa using (import_failure_policy (fun _ => .fileError "f.xml") ⟨true, "f.xml", none⟩ []).1 "f.xml" rfl

/-! ### C8: unresolved root-path -/

/-- C8: when an import carries a root-path and the segment-by-segment descent
through the tree locator fails at any segment, the import silently
contributes nothing: the current tree is returned unchanged and no error is
raised. -/
theorem unresolved_root_path_contributes_nothing :
    ∀ (fs : String → LoadResult) (imp : ImportType) (data tree : List ContentNode) (rn : String),
      fs imp.importPath = .parsed tree →
      imp.rootNode = some rn →
      descendRoot (splitKey rn) tree = none →
      read_included_file fs imp data = .ok data := by
  intro fs imp data tree rn h1 h2 h3
  simp [read_included_file, h1, h2, h3]

/-- Witness for C8: importing a document whose tree has `a` but not
`a/missing` under it, with `rootNode = "a/missing"`, succeeds with zero
grafted content. -/
theorem unresolved_root_path_witness :
    read_included_file (fun _ => .parsed [.node "a" [.entry "b" "t" none none []]])
      ⟨true, "x.xml", some "a/missing"⟩ [] = .ok [] :=
  unresolved_root_path_contributes_nothing _ _ []
    [.node "a" [.entry "b" "t" none none []]] "a/missing" rfl rfl
    (by simp [show splitKey "a/missing" = ["a", "missing"] from rfl, descendRoot,
      findCG, findCGAux, childrenAtN, getN, childrenOf])

/-! ### C3: duplicate entries -/

/-- C3: whenever the final segment of an entry's resolved key is located by
the tree locator with the `isEntry` flag set (a direct `EntryType` match in
the target content group), `readEntry` fails with the duplicate-entry
structural error naming the offending (full, as-declared) key, and no tree is
produced — the existing entry is not overwritten. -/
theorem duplicate_entry_fails :
    ∀ (fe : EntryDecl) (t : List ContentNode) (kc : List String) (ek : String) (p : List Nat),
      resolve fe.key = some (kc, ek) →
      findCG (childrenAtN (kc.foldl stepChain (ContentNode.group t, [])).1
          (kc.foldl stepChain (ContentNode.group t, [])).2) ek = some (p, true) →
      readEntry fe t = .error (.xmlError ("Found duplicated entry with key: " ++ fe.key)) := by
  intro fe t kc ek p h1 h2
  simp [readEntry, insertResolved, h1, h2]

/-- Witness for C3: inserting `"x/y"` into the tree produced by a first
insertion of `"x/y"` fails with the duplicate-entry error naming `"x/y"`. -/
theorem duplicate_entry_fails_witness :
    readEntry ⟨"x/y", "int", some "1", none⟩
        [.node "x" [.entry "y" "int" (some "1") none []]] =
      .error (.xmlError "Found duplicated entry with key: x/y") :=
  duplicate_entry_fails ⟨"x/y", "int", some "1", none⟩
    [.node "x" [.entry "y" "int" (some "1") none []]] ["x"] "y" [0]
    (by simp [resolve, show splitKey "x/y" = ["x", "y"] from rfl])
    (by simp [stepChain, findCG, findCGAux, childrenAtN, getN, childrenOf])

/-! ### C2: flat-dialect layering -/

/-- C2 counterexample: a flat-dialect category may directly contain an entry
(and also a group) — the category reader accepts both without the
intermediate section/group layer, instead of rejecting them with a
structural error. -/
theorem category_accepts_entry_directly :
    readCategory [.entryE ⟨"a", "int", none, none⟩] [] =
      .ok [.entry "a" "int" none none []] ∧
    readCategory [.groupE [.entryE ⟨"g", "int", none, none⟩]] [] =
      .ok [.entry "g" "int" none none []] := by
  constructor <;>
    simp [readCategory, readGroup, readEntry, insertResolved, resolve,
      show splitKey "a" = ["a"] from rfl,
      show splitKey "g" = ["g"] from rfl, findCG, findCGAux, childrenAtN, getN,
      childrenOf, modifyN, appendChildF, withChildren, populateFun] <;>
    rfl

/-- C2 amended: each flat-dialect layer accepts every lower layer directly —
a category accepts sections, groups and entries, a section accepts groups and
entries, a group accepts only entries; a child of any other kind (including a
repeated or ascending layer) is rejected with the layer's structural
error. -/
theorem flat_layering_policy :
    (∀ (e : EntryDecl) (t : List ContentNode), readCategory [.entryE e] t = readEntry e t) ∧
    (∀ (ch : List ConfElement) (t : List ContentNode),
      readCategory [.groupE ch] t = readGroup ch t) ∧
    (∀ (ch : List ConfElement) (t : List ContentNode),
      readCategory [.sectionE ch] t = readSection ch t) ∧
    (∀ (ch rest : List ConfElement) (t : List ContentNode),
      readCategory (.categoryE ch :: rest) t =
        .error (.xmlError "Unexpected child element in included SettingsConf Categoy")) ∧
    (∀ (rest : List ConfElement) (t : List ContentNode),
      readCategory (.otherE :: rest) t =
        .error (.xmlError "Unexpected child element in included SettingsConf Categoy")) ∧
    (∀ (e : EntryDecl) (t : List ContentNode), readSection [.entryE e] t = readEntry e t) ∧
    (∀ (ch : List ConfElement) (t : List ContentNode),
      readSection [.groupE ch] t = readGroup ch t) ∧
    (∀ (ch rest : List ConfElement) (t : List ContentNode),
      readSection (.sectionE ch :: rest) t =
        .error (.xmlError "Unexpected child element in included SettingsConf Section")) ∧
    (∀ (ch rest : List ConfElement) (t : List ContentNode),
      readSection (.categoryE ch :: rest) t =
        .error (.xmlError "Unexpected child element in included SettingsConf Section")) ∧
    (∀ (rest : List ConfElement) (t : List ContentNode),
      readSection (.otherE :: rest) t =
        .error (.xmlError "Unexpected child element in included SettingsConf Section")) ∧
    (∀ (e : EntryDecl) (t : List ContentNode), readGroup [.entryE e] t = readEntry e t) ∧
    (∀ (ch rest : List ConfElement) (t : List ContentNode),
      readGroup (.groupE ch :: rest) t =
        .error (.xmlError "Unexpected child element in included SettingsConf Group")) ∧
    (∀ (ch rest : List ConfElement) (t : List ContentNode),
      readGroup (.sectionE ch :: rest) t =
        .error (.xmlError "Unexpected child element in included SettingsConf Group")) ∧
    (∀ (ch rest : List ConfElement) (t : List ContentNode),
      readGroup (.categoryE ch :: rest) t =
        .error (.xmlError "Unexpected child element in included SettingsConf Group")) ∧
    (∀ (rest : List ConfElement) (t : List ContentNode),
      readGroup (.otherE :: rest) t =
        .error (.xmlError "Unexpected child element in included SettingsConf Group")) := by
  refine ⟨?_, ?_, ?_, fun _ _ _ => rfl, fun _ _ => rfl, ?_, ?_, fun _ _ _ => rfl,
    fun _ _ _ => rfl, fun _ _ => rfl, ?_, fun _ _ _ => rfl, fun _ _ _ => rfl,
    fun _ _ _ => rfl, fun _ _ => rfl⟩
  · intro e t; cases h : readEntry e t <;> simp [readCategory, h] <;> rfl
  · intro ch t; cases h : readGroup ch t <;> simp [readCategory, h] <;> rfl
  · intro ch t; cases h : readSection ch t <;> simp [readCategory, h] <;> rfl
  · intro e t; cases h : readEntry e t <;> simp [readSection, h] <;> rfl
  · intro ch t; cases h : readGroup ch t <;> simp [readSection, h] <;> rfl
  · intro e t; cases h : readEntry e t <;> simp [readGroup, h] <;> rfl

/-! ### C5: the tree locator -/

lemma findCGAux_eq_find :
    ∀ (nodes : List ContentNode) (key : String) (i : Nat),
      findCGAux nodes key i =
        ((candidatesAux nodes i).find? (fun c => c.2.1 == key)).map (fun c => (c.1, c.2.2)) := by
  intro nodes key i
  induction nodes, key, i using findCGAux.induct
  all_goals
    try simp_all [findCGAux, candidatesAux, List.find?_cons_of_pos, List.find?_cons_of_neg,
      List.find?_append, List.find?_map, Function.comp_def]
  case case6 ch rest key i pb hx ih =>
    cases hf : List.find? (fun c => c.2.1 == key) (candidatesAux ch 0) <;>
      simp_all [findCGAux, candidatesAux, List.find?_append, List.find?_map, Function.comp_def]
  case case7 ch rest key i hx ih2 ih1 =>
    cases hf : List.find? (fun c => c.2.1 == key) (candidatesAux ch 0) <;>
      simp_all [findCGAux, candidatesAux, List.find?_append, List.find?_map, Function.comp_def]

/-- C5 counterexample: with children `[anonymous group containing a node
"k", node "k"]`, a direct match for `"k"` exists at the current level (index
1), yet `findContentGroup` returns the match inside the earlier anonymous
group (path `[0, 0]`) — the recursion into an anonymous group happens at its
position in the scan, not only when no direct match exists. -/
theorem nested_match_shadows_direct :
    findCG [.group [.node "k" [.node "inner" []]], .node "k" []] "k" = some ([0, 0], false) ∧
    ([0, 0] : List Nat) ≠ [1] :=
  ⟨by simp [findCG, findCGAux], by simp⟩

/-- C5 amended: `findContentGroup` returns the first match of the
left-to-right scan of the children in which an anonymous nested content group
is searched through transparently at its position (so content spliced from
an import remains reachable as if inlined, and a match inside an earlier
anonymous group precedes a later direct match); matching is exact,
case-sensitive key equality; the reported `isEntry` flag holds exactly for a
direct entry match; a key matching nothing yields `none` (NotFound). -/
theorem findCG_first_match :
    ∀ (nodes : List ContentNode) (key : String),
      findCG nodes key =
        ((candidates nodes).find? (fun c => c.2.1 == key)).map (fun c => (c.1, c.2.2)) ∧
      (findCG nodes key = none ↔ ∀ c ∈ candidates nodes, c.2.1 ≠ key) := by
  intro nodes key
  have h := findCGAux_eq_find nodes key 0
  refine ⟨h, ?_⟩
  rw [findCG, h]
  simp [candidates, List.find?_eq_none]

/-! ### C4: the node promoter -/

lemma modifyN_group_cons (j : Nat) (q : List Nat) (f : ContentNode → ContentNode)
    (ch : List ContentNode) :
    modifyN (j :: q) f (.group ch) =
      .group (match ch[j]? with
        | some cj => ch.set j (modifyN q f cj)
        | none => ch) := by
  cases h : ch[j]? <;> simp [modifyN, childrenOf, h, withChildren]

lemma replaceNBE_some_spec :
    ∀ (p : List Nat) (nodes : List ContentNode) (e : ContentNode) (nodes' : List ContentNode),
      replaceNBE nodes p e = some nodes' →
      ∃ k ch, getN p (.group nodes) = some (.node k ch) ∧
        nodes' = childrenOf (modifyN p (fun _ => e) (.group nodes)) := by
  intro p
  induction p with
  | nil => intro nodes e nodes' h; simp [replaceNBE] at h
  | cons i q ih =>
    intro nodes e nodes' h
    rw [replaceNBE] at h
    cases hi : nodes[i]? with
    | none => rw [hi] at h; exact absurd h (by simp)
    | some c =>
      rw [hi] at h
      cases q with
      | nil =>
        cases c with
        | node k ch =>
          simp at h
          refine ⟨k, ch, by simp [getN, childrenOf, hi], ?_⟩
          simp [modifyN, childrenOf, hi, withChildren, ← h]
        | entry k t d tr ch => exact absurd h (by simp)
        | group ch => exact absurd h (by simp)
      | cons j q' =>
        cases c with
        | node k ch => exact absurd h (by simp)
        | entry k t d tr ch => exact absurd h (by simp)
        | group ch =>
          simp only [Option.map_eq_some'] at h
          obtain ⟨ch2, hch2, rfl⟩ := h
          obtain ⟨k, ch', hget, hchar⟩ := ih ch e ch2 hch2
          refine ⟨k, ch', ?_, ?_⟩
          · simpa [getN, childrenOf, hi] using hget
          · rw [modifyN]
            simp only [childrenOf, hi]
            rw [hchar, modifyN_group_cons]
            cases hj : ch[j]? with
            | none =>
              simp [getN, childrenOf, hj] at hget
            | some cj => simp [withChildren, childrenOf]

lemma replaceNBE_entry_none :
    ∀ (p : List Nat) (nodes : List ContentNode) (e : ContentNode)
      (k ty : String) (dv tr : Option String) (ch : List ContentNode),
      getN p (.group nodes) = some (.entry k ty dv tr ch) →
      replaceNBE nodes p e = none := by
  intro p
  induction p with
  | nil => intro nodes e k ty dv tr ch h; rfl
  | cons i q ih =>
    intro nodes e k ty dv tr ch h
    have h' : (match nodes[i]? with
        | some ci => getN q ci
        | none => none) = some (ContentNode.entry k ty dv tr ch) := h
    rw [replaceNBE]
    cases hi : nodes[i]? with
    | none => rw [hi] at h'
    | some c =>
      rw [hi] at h'
      cases q with
      | nil =>
        have hc : c = ContentNode.entry k ty dv tr ch := by simpa [getN] using h'
        subst hc
        rfl
      | cons j q' =>
        cases c with
        | node k' ch' => rfl
        | entry k' ty' dv' tr' ch' => rfl
        | group ch' =>
          simp [ih ch' e k ty dv tr ch h']

/-- C4: the node promoter locates its target purely by identity (the target
path), not by key: a successful `replaceNodeByEntry` run means the target was
a `NodeType` (an entry target always fails — the reverse transition never
occurs), and the result is exactly the tree with that one slot overwritten in
place; at the parent level, the list keeps its length, the promoted slot
holds the new entry at the same position, and every other child is unchanged.
Within `readEntry`'s promotion branch the replacement entry is built from the
located group's own children, so a promoted group keeps its entire children
sequence, its position, and gains the declaration's data fields. -/
theorem promotion_preserves_children_and_position :
    (∀ (nodes : List ContentNode) (p : List Nat) (e : ContentNode) (nodes' : List ContentNode),
      replaceNBE nodes p e = some nodes' →
      ∃ k ch, getN p (.group nodes) = some (.node k ch) ∧
        nodes' = childrenOf (modifyN p (fun _ => e) (.group nodes))) ∧
    (∀ (nodes : List ContentNode) (p : List Nat) (e : ContentNode)
      (k ty : String) (dv tr : Option String) (ch : List ContentNode),
      getN p (.group nodes) = some (.entry k ty dv tr ch) →
      replaceNBE nodes p e = none) ∧
    (∀ (nodes : List ContentNode) (i : Nat) (e : ContentNode) (nodes' : List ContentNode),
      replaceNBE nodes [i] e = some nodes' →
      nodes'.length = nodes.length ∧ nodes'[i]? = some e ∧
        ∀ j, j ≠ i → nodes'[j]? = nodes[j]?) ∧
    (∀ (k ty : String) (dv tr : Option String) (ch rest : List ContentNode),
      splitKey k = [k] →
      readEntry ⟨k, ty, dv, tr⟩ (.node k ch :: rest) =
        .ok (.entry k ty dv tr ch :: rest)) := by
  refine ⟨fun nodes p e nodes' h => replaceNBE_some_spec p nodes e nodes' h,
    fun nodes p e k ty dv tr ch h => replaceNBE_entry_none p nodes e k ty dv tr ch h,
    ?_, ?_⟩
  · intro nodes i e nodes' h
    rw [replaceNBE] at h
    cases hi : nodes[i]? with
    | none => rw [hi] at h; exact absurd h (by simp)
    | some c =>
      rw [hi] at h
      cases c with
      | node k ch =>
        simp only [Option.some_inj] at h
        subst h
        have hlen : i < nodes.length := by
          have := List.getElem?_eq_some_iff.mp hi
          exact this.1
        refine ⟨by simp, ?_, ?_⟩
        · exact List.getElem?_set_self hlen
        · intro j hj
          exact List.getElem?_set_ne (Ne.symm hj)
      | entry k ty dv tr ch => exact absurd h (by simp)
      | group ch => exact absurd h (by simp)
  · intro k ty dv tr ch rest h
    simp [readEntry, insertResolved, resolve, h, findCG, findCGAux, childrenAtN, getN,
      childrenOf, replaceNBE, modifyN, withChildren, populateFun]

/-- Witness for C4: a concrete promotion — the group `g` (holding entry `x`)
declared again as a value at the single-segment key `"g"` becomes an entry at
the same position keeping its child, and the (identity-located) slot facts of
the promoter hold at a concrete two-child list. -/
theorem promotion_witness :
    readEntry ⟨"g", "ty", some "0", none⟩
        [.node "g" [.entry "x" "t" none none []], .entry "other" "t" none none []] =
      .ok [.entry "g" "ty" (some "0") none [.entry "x" "t" none none []],
        .entry "other" "t" none none []] ∧
    ([ContentNode.entry "g" "" none none []].length = [ContentNode.node "g" []].length ∧
      [ContentNode.entry "g" "" none none []][0]? = some (.entry "g" "" none none []) ∧
      ∀ j, j ≠ 0 → [ContentNode.entry "g" "" none none []][j]? = [ContentNode.node "g" []][j]?) := by
  constructor
  · have h :=
      promotion_preserves_children_and_position.2.2.2 "g" "ty" (some "0") none
        [.entry "x" "t" none none []] [.entry "other" "t" none none []] (by rfl)
    exact h
  · exact promotion_preserves_children_and_position.2.2.1
      [.node "g" []] 0 (.entry "g" "" none none []) [.entry "g" "" none none []]
      (by simp [replaceNBE])

/-! ### C10: entries hidden in anonymous groups -/

lemma findCGAux_nested_flag :
    ∀ (l : List ContentNode) (key : String) (i : Nat) (p : List Nat) (b : Bool),
      findCGAux l key i = some (p, b) → 2 ≤ p.length → b = false := by
  intro l
  induction l with
  | nil => intro key i p b h _; simp [findCGAux] at h
  | cons c rest ih =>
    intro key i p b h hlen
    cases c with
    | node k ch =>
      rw [findCGAux] at h
      by_cases hk : k = key
      · rw [if_pos hk] at h
        injection h with h2
        injection h2 with hp hb
        exact hb.symm
      · rw [if_neg hk] at h
        exact ih key (i + 1) p b h hlen
    | entry k ty dv tr ch =>
      rw [findCGAux] at h
      by_cases hk : k = key
      · rw [if_pos hk] at h
        injection h with h2
        injection h2 with hp hb
        rw [← hp] at hlen
        simp at hlen
      · rw [if_neg hk] at h
        exact ih key (i + 1) p b h hlen
    | group ch =>
      rw [findCGAux] at h
      cases hf : findCGAux ch key 0 with
      | some pb =>
        rw [hf] at h
        injection h with h2
        injection h2 with hp hb
        exact hb.symm
      | none =>
        rw [hf] at h
        exact ih key (i + 1) p b h hlen

/-- C10: for every content group, a match that `findContentGroup` locates
inside an anonymous nested content group — a path of two or more steps, in
particular an `EntryType` reachable only through such a group — is always
reported with `isEntry = false`, because the recursive call into the
anonymous group passes no out-parameter; whenever the located node is an
`EntryType`, the identity-based `replaceNodeByEntry` (which only matches
`NodeType` slots) finds no match for it; consequently, whenever `readEntry`'s
final lookup returns such a nested entry (with the flag `false`), it takes
the promotion branch instead of reporting a duplicate and runs into the
failed `Q_ASSERT(eGrp)`, modelled as `internalError`. -/
theorem nested_entry_reported_as_group :
    (∀ (nodes : List ContentNode) (key : String) (p : List Nat) (b : Bool),
      findCG nodes key = some (p, b) → 2 ≤ p.length → b = false) ∧
    (∀ (nodes : List ContentNode) (p : List Nat) (e : ContentNode)
      (k ty : String) (dv tr : Option String) (ch : List ContentNode),
      getN p (.group nodes) = some (.entry k ty dv tr ch) →
      replaceNBE nodes p e = none) ∧
    (∀ (fe : EntryDecl) (t : List ContentNode) (kc : List String) (ek : String)
      (p : List Nat) (k ty : String) (dv tr : Option String) (ch : List ContentNode),
      resolve fe.key = some (kc, ek) →
      findCG (childrenAtN (kc.foldl stepChain (ContentNode.group t, [])).1
        (kc.foldl stepChain (ContentNode.group t, [])).2) ek = some (p, false) →
      getN p (.group (childrenAtN (kc.foldl stepChain (ContentNode.group t, [])).1
        (kc.foldl stepChain (ContentNode.group t, [])).2)) = some (.entry k ty dv tr ch) →
      readEntry fe t = .error .internalError) := by
  refine ⟨fun nodes key p b h hlen => findCGAux_nested_flag nodes key 0 p b h hlen,
    fun nodes p e k ty dv tr ch h => replaceNBE_entry_none p nodes e k ty dv tr ch h, ?_⟩
  intro fe t kc ek p k ty dv tr ch hres hfind hget
  have hrep : ∀ e, replaceNBE (childrenAtN (kc.foldl stepChain (ContentNode.group t, [])).1
      (kc.foldl stepChain (ContentNode.group t, [])).2) p e = none :=
    fun e => replaceNBE_entry_none p _ e k ty dv tr ch hget
  simp [readEntry, insertResolved, hres, hfind, hrep]

/-- Witness for C10: the concrete group whose only child named `"k"` is an
entry inside an anonymous nested group — `readEntry` runs into the failed
assertion. -/
theorem nested_entry_reported_as_group_witness :
    readEntry ⟨"k", "t2", none, none⟩ [.group [.entry "k" "t" none none []]] =
      .error .internalError :=
  nested_entry_reported_as_group.2.2 ⟨"k", "t2", none, none⟩
    [.group [.entry "k" "t" none none []]] [] "k" [0, 0] "k" "t" none none [] rfl
    (by simp [findCG, findCGAux, childrenAtN, getN, childrenOf])
    (by simp [childrenAtN, getN, childrenOf])

/-! ### Invariant machinery for the flat-schema translator (C6, C9) -/

/-- Whether a child is an `EntryType`. -/
def isEntryB : ContentNode → Bool
  | .entry _ _ _ _ _ => true
  | _ => false

/-- Whether two children are the same kind of variant alternative. -/
def sameKind : ContentNode → ContentNode → Bool
  | .node _ _, .node _ _ => true
  | .entry _ _ _ _ _, .entry _ _ _ _ _ => true
  | .group _, .group _ => true
  | _, _ => false

/-- The key-segment path contributed by a child itself (an entry contributes
its own key, a node or group does not). -/
def ownPaths : ContentNode → List (List String)
  | .entry k _ _ _ _ => [[k]]
  | _ => []

@[simp]
lemma entryPathsL_nil : entryPathsL [] = [] := by simp [entryPathsL]

@[simp]
lemma entryPathsL_cons (c : ContentNode) (rest : List ContentNode) :
    entryPathsL (c :: rest) = nodePaths c ++ entryPathsL rest := by simp [entryPathsL]

@[simp]
lemma entryPathsL_append (a b : List ContentNode) :
    entryPathsL (a ++ b) = entryPathsL a ++ entryPathsL b := by
  induction a with
  | nil => simp
  | cons c rest ih => simp [ih]

@[simp]
lemma gfL_nil : gfL [] = true := rfl

@[simp]
lemma gfL_cons (c : ContentNode) (rest : List ContentNode) :
    gfL (c :: rest) = (gfN c && gfL rest) := by simp [gfL]

@[simp]
lemma gfL_append (a b : List ContentNode) :
    gfL (a ++ b) = (gfL a && gfL b) := by
  induction a with
  | nil => simp
  | cons c rest ih => simp [ih, Bool.and_assoc]

@[simp]
lemma keysOf_nil : keysOf [] = [] := rfl

@[simp]
lemma keysOf_cons (c : ContentNode) (rest : List ContentNode) :
    keysOf (c :: rest) = (childKey c).toList ++ keysOf rest := by
  cases c <;> simp [keysOf, childKey, List.filterMap_cons]

@[simp]
lemma keysOf_append (a b : List ContentNode) :
    keysOf (a ++ b) = keysOf a ++ keysOf b := by
  simp [keysOf, List.filterMap_append]

@[simp]
lemma uniqL_nil : uniqL [] = true := rfl

@[simp]
lemma uniqL_cons (c : ContentNode) (rest : List ContentNode) :
    uniqL (c :: rest) =
      (uniqN c &&
        (match childKey c with
         | some k => !((keysOf rest).contains k)
         | none => true) &&
        uniqL rest) := by
  simp [uniqL]

lemma nodePaths_shape (c : ContentNode) (k : String) (h : childKey c = some k) :
    nodePaths c = ownPaths c ++ (entryPathsL (childrenOf c)).map (fun s => k :: s) := by
  cases c with
  | node k' ch => simp [childKey] at h; subst h; simp [nodePaths, ownPaths, childrenOf]
  | entry k' ty dv tr ch => simp [childKey] at h; subst h; simp [nodePaths, ownPaths, childrenOf]
  | group ch => simp [childKey] at h

lemma ownPaths_congr (a b : ContentNode) (hk : sameKind a b = true)
    (h : childKey a = childKey b) : ownPaths a = ownPaths b := by
  cases a <;> cases b <;> simp_all [sameKind, childKey, ownPaths]

lemma sameKind_withChildren (x : ContentNode) (l : List ContentNode) :
    sameKind (withChildren x l) x = true := by
  cases x <;> rfl

lemma gfN_eq_children (c : ContentNode) (k : String) (h : childKey c = some k) :
    gfN c = gfL (childrenOf c) := by
  cases c <;> simp_all [childKey, gfN, childrenOf]

lemma gfN_children (c : ContentNode) (h : gfN c = true) :
    gfL (childrenOf c) = true := by
  cases c <;> simp_all [gfN, childrenOf]

lemma uniqN_eq_children (c : ContentNode) : uniqN c = uniqL (childrenOf c) := by
  cases c <;> rfl

lemma gfL_getElem (l : List ContentNode) (i : Nat) (c : ContentNode)
    (hl : gfL l = true) (hi : l[i]? = some c) : gfN c = true := by
  induction l generalizing i with
  | nil => simp at hi
  | cons a rest ih =>
    simp at hl
    cases i with
    | zero => simp at hi; subst hi; exact hl.1
    | succ j => exact ih j hl.2 (by simpa using hi)

lemma uniqL_getElem (l : List ContentNode) (i : Nat) (c : ContentNode)
    (hl : uniqL l = true) (hi : l[i]? = some c) : uniqN c = true := by
  induction l generalizing i with
  | nil => simp at hi
  | cons a rest ih =>
    simp at hl
    cases i with
    | zero => simp at hi; subst hi; exact hl.1.1
    | succ j => exact ih j hl.2 (by simpa using hi)

lemma gfL_set (l : List ContentNode) (i : Nat) (c c' : ContentNode)
    (hl : gfL l = true) (hi : l[i]? = some c) (hc : gfN c' = true) :
    gfL (l.set i c') = true := by
  induction l generalizing i with
  | nil => simp at hi
  | cons a rest ih =>
    simp at hl
    cases i with
    | zero => simp [List.set, hc, hl.2]
    | succ j => simp [List.set, hl.1, ih j hl.2 (by simpa using hi)]

lemma keysOf_set (l : List ContentNode) (i : Nat) (c c' : ContentNode)
    (hi : l[i]? = some c) (hk : childKey c' = childKey c) :
    keysOf (l.set i c') = keysOf l := by
  induction l generalizing i with
  | nil => simp at hi
  | cons a rest ih =>
    cases i with
    | zero => simp at hi; subst hi; simp [List.set, hk]
    | succ j => simp [List.set, ih j (by simpa using hi)]

lemma uniqL_set (l : List ContentNode) (i : Nat) (c c' : ContentNode)
    (hl : uniqL l = true) (hi : l[i]? = some c) (hk : childKey c' = childKey c)
    (hc : uniqN c' = true) :
    uniqL (l.set i c') = true := by
  induction l generalizing i with
  | nil => simp at hi
  | cons a rest ih =>
    simp at hl
    cases i with
    | zero =>
      simp at hi; subst hi
      simp [List.set, hc, hk, hl.1.2, hl.2]
    | succ j =>
      simp [List.set, hl.1.1, keysOf_set rest j c c' (by simpa using hi) hk, hl.1.2,
        ih j hl.2 (by simpa using hi)]

lemma entryPaths_set_decomp (l : List ContentNode) (i : Nat) (c : ContentNode)
    (hi : l[i]? = some c) :
    ∃ A B, entryPathsL l = A ++ nodePaths c ++ B ∧
      ∀ c', entryPathsL (l.set i c') = A ++ nodePaths c' ++ B := by
  induction l generalizing i with
  | nil => simp at hi
  | cons a rest ih =>
    cases i with
    | zero =>
      simp at hi; subst hi
      exact ⟨[], entryPathsL rest, by simp, fun c' => by simp [List.set]⟩
    | succ j =>
      obtain ⟨A, B, h1, h2⟩ := ih j (by simpa using hi)
      exact ⟨nodePaths a ++ A, B, by simp [h1], fun c' => by simp [List.set, h2 c']⟩

lemma getN_cons (i : Nat) (q : List Nat) (c : ContentNode) :
    getN (i :: q) c =
      match (childrenOf c)[i]? with
      | some ci => getN q ci
      | none => none := rfl

lemma getN_append (p q : List Nat) (c : ContentNode) :
    getN (p ++ q) c = (getN p c).bind (fun x => getN q x) := by
  induction p generalizing c with
  | nil => simp [getN]
  | cons i p' ih =>
    rw [List.cons_append, getN_cons, getN_cons]
    cases hi : (childrenOf c)[i]? with
    | none => simp
    | some ci => simp [ih ci]

lemma modifyN_cons (i : Nat) (q : List Nat) (f : ContentNode → ContentNode) (c : ContentNode) :
    modifyN (i :: q) f c =
      match (childrenOf c)[i]? with
      | some ci => withChildren c ((childrenOf c).set i (modifyN q f ci))
      | none => c := rfl

lemma modifyN_congr_fun (p : List Nat) (f : ContentNode → ContentNode) (r x : ContentNode)
    (h : getN p r = some x) : modifyN p f r = modifyN p (fun _ => f x) r := by
  induction p generalizing r with
  | nil =>
    obtain rfl : r = x := by simpa [getN] using h
    rfl
  | cons i q ih =>
    rw [modifyN_cons, modifyN_cons]
    cases hi : (childrenOf r)[i]? with
    | none => rfl
    | some ci =>
      have h' : getN q ci = some x := by rw [getN_cons, hi] at h; exact h
      simp [ih ci h']

lemma getN_modifyN_self (p : List Nat) (f : ContentNode → ContentNode) (r x : ContentNode)
    (h : getN p r = some x) : getN p (modifyN p f r) = some (f x) := by
  induction p generalizing r with
  | nil =>
    obtain rfl : r = x := by simpa [getN] using h
    rfl
  | cons i q ih =>
    cases hi : (childrenOf r)[i]? with
    | none => rw [getN_cons, hi] at h; exact absurd h (by simp)
    | some ci =>
      have h' : getN q ci = some x := by rw [getN_cons, hi] at h; exact h
      have hlen : i < (childrenOf r).length := (List.getElem?_eq_some_iff.mp hi).1
      rw [modifyN_cons, hi, getN_cons]
      simp [List.getElem?_set_self hlen, ih ci h']

lemma childKey_modifyN (q : List Nat) (f : ContentNode → ContentNode) (c x : ContentNode)
    (hg : getN q c = some x) (hk : childKey (f x) = childKey x) :
    childKey (modifyN q f c) = childKey c := by
  cases q with
  | nil =>
    obtain rfl : c = x := by simpa [getN] using hg
    exact hk
  | cons j q' =>
    rw [modifyN_cons]
    cases hj : (childrenOf c)[j]? <;> simp

lemma sameKind_refl (c : ContentNode) : sameKind c c = true := by
  cases c <;> rfl

lemma sameKind_modifyN (q : List Nat) (c x x' : ContentNode)
    (hg : getN q c = some x) (hk : sameKind x' x = true) :
    sameKind (modifyN q (fun _ => x') c) c = true := by
  cases q with
  | nil =>
    obtain rfl : c = x := by simpa [getN] using hg
    exact hk
  | cons j q' =>
    rw [modifyN_cons]
    cases hj : (childrenOf c)[j]? with
    | none => exact sameKind_refl c
    | some cj => exact sameKind_withChildren c _

lemma keysAlongN_cons (i : Nat) (q : List Nat) (c : ContentNode) :
    keysAlongN (i :: q) c =
      match (childrenOf c)[i]? with
      | some ci =>
          match childKey ci with
          | some k => (keysAlongN q ci).map (fun ks => k :: ks)
          | none => none
      | none => none := rfl

lemma keysAlongN_append (p q : List Nat) :
    ∀ (r x : ContentNode) (a : List String),
      getN p r = some x → keysAlongN p r = some a →
      keysAlongN (p ++ q) r = (keysAlongN q x).map (fun ks => a ++ ks) := by
  induction p with
  | nil =>
    intro r x a hg hk
    obtain rfl : r = x := by simpa [getN] using hg
    obtain rfl : ([] : List String) = a := by simpa [keysAlongN] using hk
    simp
  | cons i p' ih =>
    intro r x a hg hk
    cases hi : (childrenOf r)[i]? with
    | none => rw [keysAlongN_cons, hi] at hk; exact absurd hk (by simp)
    | some ci =>
      have hk' : (match childKey ci with
          | some k => (keysAlongN p' ci).map (fun ks => k :: ks)
          | none => none) = some a := by
        rw [keysAlongN_cons, hi] at hk; exact hk
      have hg' : getN p' ci = some x := by rw [getN_cons, hi] at hg; exact hg
      cases hck : childKey ci with
      | none => rw [hck] at hk'; exact absurd hk' (by simp)
      | some k =>
        rw [hck] at hk'
        obtain ⟨a', ha', rfl⟩ := Option.map_eq_some'.mp hk'
        have goal' : (match childKey ci with
            | some k2 => (keysAlongN (p' ++ q) ci).map (fun ks => k2 :: ks)
            | none => none) = (keysAlongN q x).map (fun ks => (k :: a') ++ ks) := by
          rw [hck, ih ci x a' hg' ha']
          cases keysAlongN q x <;> simp
        have hred : keysAlongN ((i :: p') ++ q) r =
            (match (childrenOf r)[i]? with
             | some ci =>
                match childKey ci with
                | some k2 => (keysAlongN (p' ++ q) ci).map (fun ks => k2 :: ks)
                | none => none
             | none => none) := rfl
        rw [hred, hi]
        exact goal'

lemma keysAlongN_modifyN_self (p : List Nat) (f : ContentNode → ContentNode) :
    ∀ (r x : ContentNode), getN p r = some x → childKey (f x) = childKey x →
      keysAlongN p (modifyN p f r) = keysAlongN p r := by
  induction p with
  | nil => intro r x _ _; rfl
  | cons i q ih =>
    intro r x hg hk
    cases hi : (childrenOf r)[i]? with
    | none => rw [modifyN_cons, hi]
    | some ci =>
      have hg' : getN q ci = some x := by rw [getN_cons, hi] at hg; exact hg
      have hlen : i < (childrenOf r).length := (List.getElem?_eq_some_iff.mp hi).1
      have hmod : modifyN (i :: q) f r =
          withChildren r ((childrenOf r).set i (modifyN q f ci)) := by
        rw [modifyN_cons, hi]
      have lhs : keysAlongN (i :: q) (withChildren r ((childrenOf r).set i (modifyN q f ci))) =
          (match childKey (modifyN q f ci) with
           | some k => (keysAlongN q (modifyN q f ci)).map (fun ks => k :: ks)
           | none => none) := by
        rw [keysAlongN_cons]
        rw [show childrenOf (withChildren r ((childrenOf r).set i (modifyN q f ci))) =
          (childrenOf r).set i (modifyN q f ci) from childrenOf_withChildren r _]
        rw [List.getElem?_set_self hlen]
      have rhs : keysAlongN (i :: q) r =
          (match childKey ci with
           | some k => (keysAlongN q ci).map (fun ks => k :: ks)
           | none => none) := by
        rw [keysAlongN_cons, hi]
      rw [hmod, lhs, rhs, childKey_modifyN q f ci x hg' hk, ih ci x hg' hk]

/-- The master locality lemma: replacing the node `x` addressed by path `p`
(whose traversed keys are `pre`) by any node `x'` of the same variant kind
and key splits the tree's entry-path list into an unchanged left part, the
target's contribution (prefixed by `pre`), and an unchanged right part; it
also preserves group-freeness and per-group key uniqueness provided the
replacement's children satisfy them. -/
lemma modify_master :
    ∀ (p : List Nat) (r x x' : ContentNode) (pre : List String),
      getN p r = some x →
      keysAlongN p r = some pre →
      sameKind x' x = true →
      childKey x' = childKey x →
      ∃ A B,
        entryPathsL (childrenOf r) =
          A ++ (entryPathsL (childrenOf x)).map (fun s => pre ++ s) ++ B ∧
        entryPathsL (childrenOf (modifyN p (fun _ => x') r)) =
          A ++ (entryPathsL (childrenOf x')).map (fun s => pre ++ s) ++ B ∧
        (gfL (childrenOf r) = true → gfL (childrenOf x') = true →
          gfL (childrenOf (modifyN p (fun _ => x') r)) = true) ∧
        (uniqL (childrenOf r) = true → uniqL (childrenOf x') = true →
          uniqL (childrenOf (modifyN p (fun _ => x') r)) = true) := by
  intro p
  induction p with
  | nil =>
    intro r x x' pre hg hk hkind hkey
    obtain rfl : r = x := by simpa [getN] using hg
    obtain rfl : ([] : List String) = pre := by simpa [keysAlongN] using hk
    exact ⟨[], [], by simp, by simp [modifyN], fun _ h => by simpa [modifyN] using h,
      fun _ h => by simpa [modifyN] using h⟩
  | cons i q ih =>
    intro r x x' pre hg hk hkind hkey
    cases hi : (childrenOf r)[i]? with
    | none => rw [getN_cons, hi] at hg; exact absurd hg (by simp)
    | some ci =>
      have hg' : getN q ci = some x := by rw [getN_cons, hi] at hg; exact hg
      have hk' : (match childKey ci with
          | some k => (keysAlongN q ci).map (fun ks => k :: ks)
          | none => none) = some pre := by
        rw [keysAlongN_cons, hi] at hk; exact hk
      cases hck : childKey ci with
      | none => rw [hck] at hk'; exact absurd hk' (by simp)
      | some k =>
        rw [hck] at hk'
        obtain ⟨pre', hpre', rfl⟩ := Option.map_eq_some'.mp hk'
        obtain ⟨A', B', e1, e2, hgf', huq'⟩ := ih ci x x' pre' hg' hpre' hkind hkey
        obtain ⟨A0, B0, d1, d2⟩ := entryPaths_set_decomp (childrenOf r) i ci hi
        set ci2 := modifyN q (fun _ => x') ci with hci2
        have hkey2 : childKey ci2 = childKey ci :=
          childKey_modifyN q _ ci x hg' (by simpa using hkey)
        have hkind2 : sameKind ci2 ci = true := sameKind_modifyN q ci x x' hg' hkind
        have hshape : nodePaths ci = ownPaths ci ++ (entryPathsL (childrenOf ci)).map
            (fun s => k :: s) := nodePaths_shape ci k hck
        have hshape2 : nodePaths ci2 = ownPaths ci ++ (entryPathsL (childrenOf ci2)).map
            (fun s => k :: s) := by
          rw [nodePaths_shape ci2 k (by rw [hkey2, hck]), ownPaths_congr ci2 ci hkind2 hkey2]
        have hmod : modifyN (i :: q) (fun _ => x') r =
            withChildren r ((childrenOf r).set i ci2) := by
          rw [modifyN_cons, hi]
        refine ⟨A0 ++ ownPaths ci ++ A'.map (fun s => k :: s),
          B'.map (fun s => k :: s) ++ B0, ?_, ?_, ?_, ?_⟩
        · rw [d1, hshape, e1]
          simp [List.map_append, List.map_map, List.append_assoc, Function.comp_def]
        · rw [hmod, childrenOf_withChildren, d2 ci2, hshape2, e2]
          simp [List.map_append, List.map_map, List.append_assoc, Function.comp_def]
        · intro hgr hgx'
          rw [hmod, childrenOf_withChildren]
          have hgci : gfL (childrenOf ci) = true :=
            gfN_children ci (gfL_getElem (childrenOf r) i ci hgr hi)
          have : gfN ci2 = true := by
            rw [gfN_eq_children ci2 k (by rw [hkey2, hck])]
            exact hgf' hgci hgx'
          exact gfL_set (childrenOf r) i ci ci2 hgr hi this
        · intro hur hux'
          rw [hmod, childrenOf_withChildren]
          have huci : uniqL (childrenOf ci) = true := by
            rw [← uniqN_eq_children]
            exact uniqL_getElem (childrenOf r) i ci hur hi
          have : uniqN ci2 = true := by
            rw [uniqN_eq_children]
            exact huq' huci hux'
          exact uniqL_set (childrenOf r) i ci ci2 hur hi hkey2 this

lemma gf_getN (p : List Nat) :
    ∀ (r x : ContentNode), getN p r = some x → gfL (childrenOf r) = true →
      gfL (childrenOf x) = true := by
  induction p with
  | nil =>
    intro r x hg h
    obtain rfl : r = x := by simpa [getN] using hg
    exact h
  | cons i q ih =>
    intro r x hg h
    cases hi : (childrenOf r)[i]? with
    | none => rw [getN_cons, hi] at hg; exact absurd hg (by simp)
    | some ci =>
      have hg' : getN q ci = some x := by rw [getN_cons, hi] at hg; exact hg
      exact ih ci x hg' (gfN_children ci (gfL_getElem (childrenOf r) i ci h hi))

lemma uniq_getN (p : List Nat) :
    ∀ (r x : ContentNode), getN p r = some x → uniqL (childrenOf r) = true →
      uniqL (childrenOf x) = true := by
  induction p with
  | nil =>
    intro r x hg h
    obtain rfl : r = x := by simpa [getN] using hg
    exact h
  | cons i q ih =>
    intro r x hg h
    cases hi : (childrenOf r)[i]? with
    | none => rw [getN_cons, hi] at hg; exact absurd hg (by simp)
    | some ci =>
      have hg' : getN q ci = some x := by rw [getN_cons, hi] at hg; exact hg
      have := uniqL_getElem (childrenOf r) i ci h hi
      rw [uniqN_eq_children] at this
      exact ih ci x hg' this

lemma findCGAux_gf_none :
    ∀ (l : List ContentNode) (key : String) (i : Nat), gfL l = true →
      (findCGAux l key i = none ↔ key ∉ keysOf l) := by
  intro l
  induction l with
  | nil => intro key i _; simp [findCGAux]
  | cons c rest ih =>
    intro key i hgf
    simp only [gfL_cons, Bool.and_eq_true] at hgf
    cases c with
    | node k ch =>
      by_cases hk : k = key
      · subst hk; simp [findCGAux, childKey]
      · simp [findCGAux, hk, ih key (i + 1) hgf.2, childKey, Ne.symm hk]
    | entry k ty dv tr ch =>
      by_cases hk : k = key
      · subst hk; simp [findCGAux, childKey]
      · simp [findCGAux, hk, ih key (i + 1) hgf.2, childKey, Ne.symm hk]
    | group ch => simp [gfN] at hgf

lemma findCGAux_gf_some :
    ∀ (l : List ContentNode) (key : String) (i : Nat) (p : List Nat) (b : Bool),
      gfL l = true → findCGAux l key i = some (p, b) →
      ∃ j c, p = [i + j] ∧ l[j]? = some c ∧ childKey c = some key ∧ b = isEntryB c := by
  intro l
  induction l with
  | nil => intro key i p b _ h; simp [findCGAux] at h
  | cons c rest ih =>
    intro key i p b hgf h
    simp only [gfL_cons, Bool.and_eq_true] at hgf
    cases c with
    | node k ch =>
      rw [findCGAux] at h
      by_cases hk : k = key
      · subst hk
        rw [if_pos rfl] at h
        injection h with h2
        injection h2 with hp hb
        subst hp; subst hb
        exact ⟨0, .node k ch, by simp, by simp, rfl, rfl⟩
      · rw [if_neg hk] at h
        obtain ⟨j, c', hp, hj, hck, hb⟩ := ih key (i + 1) p b hgf.2 h
        exact ⟨j + 1, c', by rw [hp]; congr 1; omega, by simpa using hj, hck, hb⟩
    | entry k ty dv tr ch =>
      rw [findCGAux] at h
      by_cases hk : k = key
      · subst hk
        rw [if_pos rfl] at h
        injection h with h2
        injection h2 with hp hb
        subst hp; subst hb
        exact ⟨0, .entry k ty dv tr ch, by simp, by simp, rfl, rfl⟩
      · rw [if_neg hk] at h
        obtain ⟨j, c', hp, hj, hck, hb⟩ := ih key (i + 1) p b hgf.2 h
        exact ⟨j + 1, c', by rw [hp]; congr 1; omega, by simpa using hj, hck, hb⟩
    | group ch => simp [gfN] at hgf

lemma findCG_gf_none (l : List ContentNode) (key : String) (h : gfL l = true) :
    findCG l key = none ↔ key ∉ keysOf l :=
  findCGAux_gf_none l key 0 h

lemma findCG_gf_some (l : List ContentNode) (key : String) (p : List Nat) (b : Bool)
    (h : gfL l = true) (hf : findCG l key = some (p, b)) :
    ∃ j c, p = [j] ∧ l[j]? = some c ∧ childKey c = some key ∧ b = isEntryB c := by
  obtain ⟨j, c, hp, hj, hck, hb⟩ := findCGAux_gf_some l key 0 p b h hf
  exact ⟨j, c, by simpa using hp, hj, hck, hb⟩

lemma uniqL_concat (l : List ContentNode) (c : ContentNode) (k : String)
    (hl : uniqL l = true) (hck : childKey c = some k) (hk : k ∉ keysOf l)
    (hc : uniqN c = true) : uniqL (l ++ [c]) = true := by
  induction l with
  | nil => simp [hc, hck]
  | cons a rest ih =>
    rw [uniqL_cons] at hl
    simp only [Bool.and_eq_true] at hl
    rw [List.cons_append, uniqL_cons]
    simp only [Bool.and_eq_true]
    have hkrest : k ∉ keysOf rest := fun hcon =>
      hk (by simp [keysOf_cons, List.mem_append, hcon])
    refine ⟨⟨hl.1.1, ?_⟩, ih hl.2 hkrest⟩
    cases hcka : childKey a with
    | none => simp
    | some ka =>
      have h1 : ka ∉ keysOf rest := by
        have := hl.1.2
        rw [hcka] at this
        simpa using this
      have h2 : ka ≠ k := fun hcon =>
        hk (by simp [keysOf_cons, hcka, hcon])
      simp [keysOf_append, hck, List.mem_append, h1, h2]

lemma getN_single (j : Nat) (x : ContentNode) : getN [j] x = (childrenOf x)[j]? := by
  cases h : (childrenOf x)[j]? <;> simp [getN_cons, h, getN]

lemma childrenAtN_some (r x : ContentNode) (p : List Nat) (h : getN p r = some x) :
    childrenAtN r p = childrenOf x := by
  simp [childrenAtN, h]

/-- The `keyChain` walk of `readEntry` preserves the group-freeness,
key-uniqueness and entry-path set of the tree (it only creates empty
`NodeType`s), and ends on a valid pointer whose traversed keys are the
processed segments. -/
lemma walk_inv :
    ∀ (kc : List String) (r x : ContentNode) (cPath : List Nat) (pre : List String),
      getN cPath r = some x →
      keysAlongN cPath r = some pre →
      gfL (childrenOf r) = true →
      uniqL (childrenOf r) = true →
      ∃ (r' x' : ContentNode) (cPath' : List Nat),
        kc.foldl stepChain (r, cPath) = (r', cPath') ∧
        getN cPath' r' = some x' ∧
        keysAlongN cPath' r' = some (pre ++ kc) ∧
        gfL (childrenOf r') = true ∧
        uniqL (childrenOf r') = true ∧
        entryPathsL (childrenOf r') = entryPathsL (childrenOf r) := by
  intro kc
  induction kc with
  | nil =>
    intro r x cPath pre hg hks hgf hu
    exact ⟨r, x, cPath, rfl, hg, by simpa using hks, hgf, hu, rfl⟩
  | cons key ks ih =>
    intro r x cPath pre hg hks hgf hu
    have hgfx : gfL (childrenOf x) = true := gf_getN cPath r x hg hgf
    have hux : uniqL (childrenOf x) = true := uniq_getN cPath r x hg hu
    rw [List.foldl_cons]
    cases hf : findCG (childrenOf x) key with
    | some pb =>
      obtain ⟨j, ci, hpb, hj, hck, _⟩ :=
        findCG_gf_some (childrenOf x) key pb.1 pb.2 hgfx (by simpa using hf)
      have hstep : stepChain (r, cPath) key = (r, cPath ++ pb.1) := by
        simp [stepChain, childrenAtN, hg, hf]
      rw [hstep, hpb]
      have hg2 : getN (cPath ++ [j]) r = some ci := by
        rw [getN_append, hg]
        simpa [getN_single] using hj
      have hks2 : keysAlongN (cPath ++ [j]) r = some (pre ++ [key]) := by
        rw [keysAlongN_append cPath [j] r x pre hg hks]
        simp [keysAlongN_cons, hj, hck, keysAlongN]
      obtain ⟨r', x', cPath', hfold, a1, a2, a3, a4, a5⟩ :=
        ih r ci (cPath ++ [j]) (pre ++ [key]) hg2 hks2 hgf hu
      exact ⟨r', x', cPath', hfold, a1, by simpa [List.append_assoc] using a2, a3, a4, a5⟩
    | none =>
      have hkey_not : key ∉ keysOf (childrenOf x) := (findCG_gf_none _ key hgfx).mp hf
      have hstep : stepChain (r, cPath) key =
          (modifyN cPath (appendChildF (.node key [])) r,
            cPath ++ [(childrenOf x).length]) := by
        simp [stepChain, childrenAtN, hg, hf]
      have hcongr : modifyN cPath (appendChildF (.node key [])) r =
          modifyN cPath (fun _ => withChildren x (childrenOf x ++ [.node key []])) r := by
        have := modifyN_congr_fun cPath (appendChildF (.node key [])) r x hg
        simpa [appendChildF] using this
      obtain ⟨A, B, e1, e2, hgfm, hum⟩ := modify_master cPath r x
        (withChildren x (childrenOf x ++ [.node key []])) pre hg hks
        (sameKind_withChildren x _) (childKey_withChildren x _)
      have hpaths2 : entryPathsL (childrenOf
          (modifyN cPath (fun _ => withChildren x (childrenOf x ++ [.node key []])) r)) =
          entryPathsL (childrenOf r) := by
        rw [e2, e1]
        simp [nodePaths]
      have hgf2 : gfL (childrenOf
          (modifyN cPath (fun _ => withChildren x (childrenOf x ++ [.node key []])) r)) = true :=
        hgfm hgf (by simp [gfN, hgfx])
      have hu2 : uniqL (childrenOf
          (modifyN cPath (fun _ => withChildren x (childrenOf x ++ [.node key []])) r)) = true :=
        hum hu (by
          rw [childrenOf_withChildren]
          exact uniqL_concat (childrenOf x) (.node key []) key hux (by simp [childKey])
            hkey_not (by simp [uniqN]))
      have hgr2 : getN cPath
          (modifyN cPath (fun _ => withChildren x (childrenOf x ++ [.node key []])) r) =
          some (withChildren x (childrenOf x ++ [.node key []])) :=
        getN_modifyN_self cPath _ r x hg
      have hg2 : getN (cPath ++ [(childrenOf x).length])
          (modifyN cPath (fun _ => withChildren x (childrenOf x ++ [.node key []])) r) =
          some (.node key []) := by
        rw [getN_append, hgr2]
        simp [getN_single, List.getElem?_concat_length]
      have hks2 : keysAlongN (cPath ++ [(childrenOf x).length])
          (modifyN cPath (fun _ => withChildren x (childrenOf x ++ [.node key []])) r) =
          some (pre ++ [key]) := by
        have hksr2 : keysAlongN cPath
            (modifyN cPath (fun _ => withChildren x (childrenOf x ++ [.node key []])) r) =
            some pre := by
          rw [keysAlongN_modifyN_self cPath _ r x hg (childKey_withChildren x _), hks]
        rw [keysAlongN_append cPath _ _ _ pre hgr2 hksr2]
        simp [keysAlongN_cons, List.getElem?_concat_length, childKey, keysAlongN]
      obtain ⟨r', x', cPath', hfold, a1, a2, a3, a4, a5⟩ :=
        ih (modifyN cPath (fun _ => withChildren x (childrenOf x ++ [.node key []])) r)
          (.node key []) (cPath ++ [(childrenOf x).length]) (pre ++ [key]) hg2 hks2 hgf2 hu2
      rw [hstep, hcongr]
      exact ⟨r', x', cPath', hfold, a1, by simpa [List.append_assoc] using a2, a3, a4,
        by rw [a5, hpaths2]⟩

set_option maxHeartbeats 1000000 in
/-- One successful `readEntry` preserves group-freeness and per-group key
uniqueness, and adds exactly the resolved key's segment path to the set of
entry paths of the tree. -/
lemma readEntry_ok_inv (fe : EntryDecl) (t t' : List ContentNode)
    (hgf : gfL t = true) (hu : uniqL t = true)
    (h : readEntry fe t = .ok t') :
    gfL t' = true ∧ uniqL t' = true ∧
      (entryPathsL t').toFinset = insert (splitKey fe.key) (entryPathsL t).toFinset := by
  cases hres : resolve fe.key with
  | none => rw [readEntry, hres] at h; exact absurd h (by simp)
  | some kcek =>
    obtain ⟨kc, ek⟩ := kcek
    have hsplit : splitKey fe.key = kc ++ [ek] := by
      rw [resolve] at hres
      cases hl : (splitKey fe.key).getLast? with
      | none => rw [hl] at hres; exact absurd hres (by simp)
      | some last =>
        rw [hl] at hres
        injection hres with h2
        injection h2 with hkc hek
        subst hkc; subst hek
        exact (List.dropLast_append_getLast? last (Option.mem_def.mpr hl)).symm
    obtain ⟨r', x', cPath', hfold, hg', hks', hgf', hu', hpaths'⟩ :=
      walk_inv kc (ContentNode.group t) (ContentNode.group t) [] [] rfl rfl
        (by simpa [childrenOf] using hgf) (by simpa [childrenOf] using hu)
    have hks'' : keysAlongN cPath' r' = some kc := by simpa using hks'
    have hpaths'' : entryPathsL (childrenOf r') = entryPathsL t := by
      simpa [childrenOf] using hpaths'
    have hgfx' : gfL (childrenOf x') = true := gf_getN cPath' r' x' hg' hgf'
    have hux' : uniqL (childrenOf x') = true := uniq_getN cPath' r' x' hg' hu'
    rw [readEntry, hres] at h
    replace h : insertResolved fe kc ek t = Except.ok t' := h
    rw [insertResolved] at h
    simp only [hfold] at h
    rw [childrenAtN_some r' x' cPath' hg'] at h
    cases hfnd : findCG (childrenOf x') ek with
    | none =>
      simp only [hfnd] at h
      injection h with ht'
      have hek_not : ek ∉ keysOf (childrenOf x') := (findCG_gf_none _ ek hgfx').mp hfnd
      have hcongr1 : modifyN cPath' (appendChildF (.entry ek "" none none [])) r' =
          modifyN cPath'
            (fun _ => withChildren x' (childrenOf x' ++ [.entry ek "" none none []])) r' := by
        have := modifyN_congr_fun cPath' (appendChildF (.entry ek "" none none [])) r' x' hg'
        simpa [appendChildF] using this
      obtain ⟨A, B, e1, e2, hgfm, hum⟩ := modify_master cPath' r' x'
        (withChildren x' (childrenOf x' ++ [.entry ek "" none none []])) kc hg' hks''
        (sameKind_withChildren _ _) (childKey_withChildren _ _)
      have hgf1 : gfL (childrenOf (modifyN cPath'
          (fun _ => withChildren x' (childrenOf x' ++ [.entry ek "" none none []])) r')) =
          true := hgfm hgf' (by simp [gfN, hgfx'])
      have hu1 : uniqL (childrenOf (modifyN cPath'
          (fun _ => withChildren x' (childrenOf x' ++ [.entry ek "" none none []])) r')) =
          true := hum hu' (by
        rw [childrenOf_withChildren]
        exact uniqL_concat _ _ ek hux' (by simp [childKey]) hek_not (by simp [uniqN]))
      have hgr1 : getN cPath' (modifyN cPath'
          (fun _ => withChildren x' (childrenOf x' ++ [.entry ek "" none none []])) r') =
          some (withChildren x' (childrenOf x' ++ [.entry ek "" none none []])) :=
        getN_modifyN_self cPath' _ r' x' hg'
      have hge0 : getN (cPath' ++ [(childrenOf x').length]) (modifyN cPath'
          (fun _ => withChildren x' (childrenOf x' ++ [.entry ek "" none none []])) r') =
          some (.entry ek "" none none []) := by
        rw [getN_append, hgr1]
        simp [getN_single, List.getElem?_concat_length]
      have hkse0 : keysAlongN (cPath' ++ [(childrenOf x').length]) (modifyN cPath'
          (fun _ => withChildren x' (childrenOf x' ++ [.entry ek "" none none []])) r') =
          some (kc ++ [ek]) := by
        have hkr1 : keysAlongN cPath' (modifyN cPath'
            (fun _ => withChildren x' (childrenOf x' ++ [.entry ek "" none none []])) r') =
            some kc := by
          rw [keysAlongN_modifyN_self cPath' _ r' x' hg' (childKey_withChildren x' _), hks'']
        rw [keysAlongN_append cPath' _ _ _ kc hgr1 hkr1]
        simp [keysAlongN_cons, List.getElem?_concat_length, childKey, keysAlongN]
      obtain ⟨A2, B2, f1, f2, hgfm2, hum2⟩ := modify_master
        (cPath' ++ [(childrenOf x').length]) _ (.entry ek "" none none [])
        (populateFun fe (.entry ek "" none none [])) (kc ++ [ek]) hge0 hkse0
        (by simp [populateFun, sameKind]) (by simp [populateFun, childKey])
      have hcongr2 : modifyN (cPath' ++ [(childrenOf x').length]) (populateFun fe)
          (modifyN cPath'
            (fun _ => withChildren x' (childrenOf x' ++ [.entry ek "" none none []])) r') =
          modifyN (cPath' ++ [(childrenOf x').length])
            (fun _ => populateFun fe (.entry ek "" none none []))
            (modifyN cPath'
              (fun _ => withChildren x' (childrenOf x' ++ [.entry ek "" none none []])) r') :=
        modifyN_congr_fun _ _ _ _ hge0
      rw [hcongr1, hcongr2] at ht'
      have hnew : entryPathsL t' = A2 ++ B2 := by
        rw [← ht', f2]
        simp [populateFun, childrenOf]
      have hold1 : entryPathsL (childrenOf (modifyN cPath'
          (fun _ => withChildren x' (childrenOf x' ++ [.entry ek "" none none []])) r')) =
          A2 ++ B2 := by
        rw [f1]; simp [childrenOf, entryPathsL]
      have hmid : entryPathsL (childrenOf (modifyN cPath'
          (fun _ => withChildren x' (childrenOf x' ++ [.entry ek "" none none []])) r')) =
          A ++ ((entryPathsL (childrenOf x')).map (fun s => kc ++ s) ++ [kc ++ [ek]]) ++ B := by
        rw [e2]
        simp [nodePaths]
      have hgoal2 : uniqL t' = true := by
        rw [← ht']
        exact hum2 hu1 (by simp [populateFun, uniqN, childrenOf])
      have hgoal1 : gfL t' = true := by
        rw [← ht']
        exact hgfm2 hgf1 (by simp [populateFun, gfN, childrenOf])
      refine ⟨hgoal1, hgoal2, ?_⟩
      rw [hsplit, hnew, ← hold1, hmid, ← hpaths'', e1]
      ext a
      simp only [List.mem_toFinset, List.mem_append, Finset.mem_insert, List.mem_singleton]
      tauto
    | some pb =>
      obtain ⟨p, b⟩ := pb
      simp only [hfnd] at h
      obtain ⟨j, ci, hp, hj, hck, hb⟩ := findCG_gf_some (childrenOf x') ek p b hgfx' hfnd
      cases b with
      | true => simp at h
      | false =>
        rw [if_neg (by simp)] at h
        cases ci with
        | entry k0 ty0 dv0 tr0 ch0 => simp [isEntryB] at hb
        | group ch0 => simp [childKey] at hck
        | node k0 chi =>
          have hk0 : ek = k0 := by
            have : k0 = ek := by simpa [childKey] using hck
            exact this.symm
          subst hk0
          have hgci : getN (cPath' ++ [j]) r' = some (.node ek chi) := by
            rw [getN_append, hg']
            simpa [getN_single] using hj
          have heCh : childrenAtN r' (cPath' ++ [j]) = chi := by
            simp [childrenAtN, hgci, childrenOf]
          rw [hp, heCh] at h
          have hjlen : j < (childrenOf x').length := (List.getElem?_eq_some_iff.mp hj).1
          have hrep : replaceNBE (childrenOf x') [j] (.entry ek "" none none chi) =
              some ((childrenOf x').set j (.entry ek "" none none chi)) := by
            simp [replaceNBE, hj]
          simp only [hrep] at h
          injection h with ht'
          have hgchi : gfL chi = true :=
            gfN_children _ (gfL_getElem (childrenOf x') j _ hgfx' hj)
          have huchi : uniqL chi = true := by
            have := uniqL_getElem (childrenOf x') j _ hux' hj
            rwa [uniqN_eq_children] at this
          have hcongr1 : modifyN cPath'
              (fun y => withChildren y ((childrenOf x').set j (.entry ek "" none none chi))) r' =
              modifyN cPath'
                (fun _ => withChildren x'
                  ((childrenOf x').set j (.entry ek "" none none chi))) r' :=
            modifyN_congr_fun cPath' _ r' x' hg'
          obtain ⟨A, B, e1, e2, hgfm, hum⟩ := modify_master cPath' r' x'
            (withChildren x' ((childrenOf x').set j (.entry ek "" none none chi))) kc hg' hks''
            (sameKind_withChildren _ _) (childKey_withChildren _ _)
          obtain ⟨A0, B0, d1, d2⟩ := entryPaths_set_decomp (childrenOf x') j (.node ek chi) hj
          have hgf1 : gfL (childrenOf (modifyN cPath'
              (fun _ => withChildren x'
                ((childrenOf x').set j (.entry ek "" none none chi))) r')) = true :=
            hgfm hgf' (by
              rw [childrenOf_withChildren]
              exact gfL_set (childrenOf x') j _ _ hgfx' hj (by simp [gfN, hgchi]))
          have hu1 : uniqL (childrenOf (modifyN cPath'
              (fun _ => withChildren x'
                ((childrenOf x').set j (.entry ek "" none none chi))) r')) = true :=
            hum hu' (by
              rw [childrenOf_withChildren]
              exact uniqL_set (childrenOf x') j _ _ hux' hj (by simp [childKey])
                (by simp [uniqN, huchi]))
          have hgr1 : getN cPath' (modifyN cPath'
              (fun _ => withChildren x'
                ((childrenOf x').set j (.entry ek "" none none chi))) r') =
              some (withChildren x' ((childrenOf x').set j (.entry ek "" none none chi))) :=
            getN_modifyN_self cPath' _ r' x' hg'
          have hge0 : getN (cPath' ++ [j]) (modifyN cPath'
              (fun _ => withChildren x'
                ((childrenOf x').set j (.entry ek "" none none chi))) r') =
              some (.entry ek "" none none chi) := by
            rw [getN_append, hgr1]
            simp [getN_single, List.getElem?_set_self hjlen]
          have hkse0 : keysAlongN (cPath' ++ [j]) (modifyN cPath'
              (fun _ => withChildren x'
                ((childrenOf x').set j (.entry ek "" none none chi))) r') =
              some (kc ++ [ek]) := by
            have hkr1 : keysAlongN cPath' (modifyN cPath'
                (fun _ => withChildren x'
                  ((childrenOf x').set j (.entry ek "" none none chi))) r') = some kc := by
              rw [keysAlongN_modifyN_self cPath' _ r' x' hg' (childKey_withChildren x' _), hks'']
            rw [keysAlongN_append cPath' _ _ _ kc hgr1 hkr1]
            simp [keysAlongN_cons, List.getElem?_set_self hjlen, childKey, keysAlongN]
          obtain ⟨A2, B2, f1, f2, hgfm2, hum2⟩ := modify_master (cPath' ++ [j]) _
            (.entry ek "" none none chi) (populateFun fe (.entry ek "" none none chi))
            (kc ++ [ek]) hge0 hkse0 (by simp [populateFun, sameKind])
            (by simp [populateFun, childKey])
          have hcongr2 : modifyN (cPath' ++ [j]) (populateFun fe)
              (modifyN cPath'
                (fun _ => withChildren x'
                  ((childrenOf x').set j (.entry ek "" none none chi))) r') =
              modifyN (cPath' ++ [j]) (fun _ => populateFun fe (.entry ek "" none none chi))
                (modifyN cPath'
                  (fun _ => withChildren x'
                    ((childrenOf x').set j (.entry ek "" none none chi))) r') :=
            modifyN_congr_fun _ _ _ _ hge0
          rw [hcongr1, hcongr2] at ht'
          have hnew : entryPathsL t' =
              A2 ++ (entryPathsL chi).map (fun s => (kc ++ [ek]) ++ s) ++ B2 := by
            rw [← ht', f2]
            simp [populateFun, childrenOf]
          have hold1 : entryPathsL (childrenOf (modifyN cPath'
              (fun _ => withChildren x'
                ((childrenOf x').set j (.entry ek "" none none chi))) r')) =
              A2 ++ (entryPathsL chi).map (fun s => (kc ++ [ek]) ++ s) ++ B2 := by
            rw [f1]; simp [childrenOf]
          have hnewold : entryPathsL t' = entryPathsL (childrenOf (modifyN cPath'
              (fun _ => withChildren x'
                ((childrenOf x').set j (.entry ek "" none none chi))) r')) :=
            hnew.trans hold1.symm
          have hlist_new : entryPathsL t' =
              A ++ (A0 ++ ([ek] :: (entryPathsL chi).map (fun s => ek :: s)) ++ B0).map
                (fun s => kc ++ s) ++ B := by
            rw [hnewold, e2, childrenOf_withChildren, d2 (.entry ek "" none none chi)]
            simp [nodePaths]
          have hlist_old : entryPathsL t =
              A ++ (A0 ++ (entryPathsL chi).map (fun s => ek :: s) ++ B0).map
                (fun s => kc ++ s) ++ B := by
            rw [← hpaths'', e1, d1]
            simp [nodePaths]
          refine ⟨?_, ?_, ?_⟩
          · rw [← ht']
            exact hgfm2 hgf1 (by simp [populateFun, gfN, childrenOf, hgchi])
          · rw [← ht']
            exact hum2 hu1 (by simp [populateFun, uniqN, childrenOf, huchi])
          · rw [hsplit, hlist_new, hlist_old]
            simp only [List.map_append, List.map_cons]
            ext a
            simp only [List.mem_toFinset, List.mem_append, List.mem_cons, Finset.mem_insert]
            tauto

lemma readGroup_inv :
    ∀ (els : List ConfElement) (t t' : List ContentNode),
      gfL t = true → uniqL t = true → readGroup els t = .ok t' →
      gfL t' = true ∧ uniqL t' = true ∧
        (entryPathsL t').toFinset =
          (entryPathsL t).toFinset ∪ ((declaredKeys els).map splitKey).toFinset := by
  intro els
  induction els with
  | nil =>
    intro t t' hg hu h
    obtain rfl : t = t' := by simpa [readGroup] using h
    simp [declaredKeys, hg, hu]
  | cons e rest ih =>
    intro t t' hg hu h
    cases e with
    | entryE fe =>
      rw [readGroup] at h
      cases hre : readEntry fe t with
      | error err =>
        rw [hre] at h
        exact absurd (show Except.error err = Except.ok t' from h) (by simp)
      | ok t1 =>
        rw [hre] at h
        replace h : readGroup rest t1 = Except.ok t' := h
        obtain ⟨g1, u1, p1⟩ := readEntry_ok_inv fe t t1 hg hu hre
        obtain ⟨g2, u2, p2⟩ := ih t1 t' g1 u1 h
        refine ⟨g2, u2, ?_⟩
        rw [p2, p1]
        simp [declaredKeys, Finset.insert_union, Finset.union_insert]
    | categoryE ch => exact absurd h (by simp [readGroup])
    | sectionE ch => exact absurd h (by simp [readGroup])
    | groupE ch => exact absurd h (by simp [readGroup])
    | otherE => exact absurd h (by simp [readGroup])

lemma readSection_inv :
    ∀ (els : List ConfElement) (t t' : List ContentNode),
      gfL t = true → uniqL t = true → readSection els t = .ok t' →
      gfL t' = true ∧ uniqL t' = true ∧
        (entryPathsL t').toFinset =
          (entryPathsL t).toFinset ∪ ((declaredKeys els).map splitKey).toFinset := by
  intro els
  induction els with
  | nil =>
    intro t t' hg hu h
    obtain rfl : t = t' := by simpa [readSection] using h
    simp [declaredKeys, hg, hu]
  | cons e rest ih =>
    intro t t' hg hu h
    cases e with
    | entryE fe =>
      rw [readSection] at h
      cases hre : readEntry fe t with
      | error err =>
        rw [hre] at h
        exact absurd (show Except.error err = Except.ok t' from h) (by simp)
      | ok t1 =>
        rw [hre] at h
        replace h : readSection rest t1 = Except.ok t' := h
        obtain ⟨g1, u1, p1⟩ := readEntry_ok_inv fe t t1 hg hu hre
        obtain ⟨g2, u2, p2⟩ := ih t1 t' g1 u1 h
        refine ⟨g2, u2, ?_⟩
        rw [p2, p1]
        simp [declaredKeys, Finset.insert_union, Finset.union_insert]
    | groupE ch =>
      rw [readSection] at h
      cases hre : readGroup ch t with
      | error err =>
        rw [hre] at h
        exact absurd (show Except.error err = Except.ok t' from h) (by simp)
      | ok t1 =>
        rw [hre] at h
        replace h : readSection rest t1 = Except.ok t' := h
        obtain ⟨g1, u1, p1⟩ := readGroup_inv ch t t1 hg hu hre
        obtain ⟨g2, u2, p2⟩ := ih t1 t' g1 u1 h
        refine ⟨g2, u2, ?_⟩
        rw [p2, p1]
        simp [declaredKeys, Finset.union_assoc]
    | categoryE ch => exact absurd h (by simp [readSection])
    | sectionE ch => exact absurd h (by simp [readSection])
    | otherE => exact absurd h (by simp [readSection])

lemma readCategory_inv :
    ∀ (els : List ConfElement) (t t' : List ContentNode),
      gfL t = true → uniqL t = true → readCategory els t = .ok t' →
      gfL t' = true ∧ uniqL t' = true ∧
        (entryPathsL t').toFinset =
          (entryPathsL t).toFinset ∪ ((declaredKeys els).map splitKey).toFinset := by
  intro els
  induction els with
  | nil =>
    intro t t' hg hu h
    obtain rfl : t = t' := by simpa [readCategory] using h
    simp [declaredKeys, hg, hu]
  | cons e rest ih =>
    intro t t' hg hu h
    cases e with
    | entryE fe =>
      rw [readCategory] at h
      cases hre : readEntry fe t with
      | error err =>
        rw [hre] at h
        exact absurd (show Except.error err = Except.ok t' from h) (by simp)
      | ok t1 =>
        rw [hre] at h
        replace h : readCategory rest t1 = Except.ok t' := h
        obtain ⟨g1, u1, p1⟩ := readEntry_ok_inv fe t t1 hg hu hre
        obtain ⟨g2, u2, p2⟩ := ih t1 t' g1 u1 h
        refine ⟨g2, u2, ?_⟩
        rw [p2, p1]
        simp [declaredKeys, Finset.insert_union, Finset.union_insert]
    | groupE ch =>
      rw [readCategory] at h
      cases hre : readGroup ch t with
      | error err =>
        rw [hre] at h
        exact absurd (show Except.error err = Except.ok t' from h) (by simp)
      | ok t1 =>
        rw [hre] at h
        replace h : readCategory rest t1 = Except.ok t' := h
        obtain ⟨g1, u1, p1⟩ := readGroup_inv ch t t1 hg hu hre
        obtain ⟨g2, u2, p2⟩ := ih t1 t' g1 u1 h
        refine ⟨g2, u2, ?_⟩
        rw [p2, p1]
        simp [declaredKeys, Finset.union_assoc]
    | sectionE ch =>
      rw [readCategory] at h
      cases hre : readSection ch t with
      | error err =>
        rw [hre] at h
        exact absurd (show Except.error err = Except.ok t' from h) (by simp)
      | ok t1 =>
        rw [hre] at h
        replace h : readCategory rest t1 = Except.ok t' := h
        obtain ⟨g1, u1, p1⟩ := readSection_inv ch t t1 hg hu hre
        obtain ⟨g2, u2, p2⟩ := ih t1 t' g1 u1 h
        refine ⟨g2, u2, ?_⟩
        rw [p2, p1]
        simp [declaredKeys, Finset.union_assoc]
    | categoryE ch => exact absurd h (by simp [readCategory])
    | otherE => exact absurd h (by simp [readCategory])

lemma convertFromConf_inv :
    ∀ (els : List ConfElement) (t t' : List ContentNode),
      gfL t = true → uniqL t = true → convertFromConf els t = .ok t' →
      gfL t' = true ∧ uniqL t' = true ∧
        (entryPathsL t').toFinset =
          (entryPathsL t).toFinset ∪ ((declaredKeys els).map splitKey).toFinset := by
  intro els
  induction els with
  | nil =>
    intro t t' hg hu h
    obtain rfl : t = t' := by simpa [convertFromConf] using h
    simp [declaredKeys, hg, hu]
  | cons e rest ih =>
    intro t t' hg hu h
    cases e with
    | entryE fe =>
      rw [convertFromConf] at h
      cases hre : readEntry fe t with
      | error err =>
        rw [hre] at h
        exact absurd (show Except.error err = Except.ok t' from h) (by simp)
      | ok t1 =>
        rw [hre] at h
        replace h : convertFromConf rest t1 = Except.ok t' := h
        obtain ⟨g1, u1, p1⟩ := readEntry_ok_inv fe t t1 hg hu hre
        obtain ⟨g2, u2, p2⟩ := ih t1 t' g1 u1 h
        refine ⟨g2, u2, ?_⟩
        rw [p2, p1]
        simp [declaredKeys, Finset.insert_union, Finset.union_insert]
    | groupE ch =>
      rw [convertFromConf] at h
      cases hre : readGroup ch t with
      | error err =>
        rw [hre] at h
        exact absurd (show Except.error err = Except.ok t' from h) (by simp)
      | ok t1 =>
        rw [hre] at h
        replace h : convertFromConf rest t1 = Except.ok t' := h
        obtain ⟨g1, u1, p1⟩ := readGroup_inv ch t t1 hg hu hre
        obtain ⟨g2, u2, p2⟩ := ih t1 t' g1 u1 h
        refine ⟨g2, u2, ?_⟩
        rw [p2, p1]
        simp [declaredKeys, Finset.union_assoc]
    | sectionE ch =>
      rw [convertFromConf] at h
      cases hre : readSection ch t with
      | error err =>
        rw [hre] at h
        exact absurd (show Except.error err = Except.ok t' from h) (by simp)
      | ok t1 =>
        rw [hre] at h
        replace h : convertFromConf rest t1 = Except.ok t' := h
        obtain ⟨g1, u1, p1⟩ := readSection_inv ch t t1 hg hu hre
        obtain ⟨g2, u2, p2⟩ := ih t1 t' g1 u1 h
        refine ⟨g2, u2, ?_⟩
        rw [p2, p1]
        simp [declaredKeys, Finset.union_assoc]
    | categoryE ch =>
      rw [convertFromConf] at h
      cases hre : readCategory ch t with
      | error err =>
        rw [hre] at h
        exact absurd (show Except.error err = Except.ok t' from h) (by simp)
      | ok t1 =>
        rw [hre] at h
        replace h : convertFromConf rest t1 = Except.ok t' := h
        obtain ⟨g1, u1, p1⟩ := readCategory_inv ch t t1 hg hu hre
        obtain ⟨g2, u2, p2⟩ := ih t1 t' g1 u1 h
        refine ⟨g2, u2, ?_⟩
        rw [p2, p1]
        simp [declaredKeys, Finset.union_assoc]
    | otherE => exact absurd h (by simp [convertFromConf])

/-! ### C9: per-group key uniqueness -/

/-- C9: within one content group no two `NodeType`/`EntryType` children
share a key in any tree built by the flat-schema translator's
locate-or-create insertion: every successful `readEntry` (insertion or
promotion) preserves the uniqueness invariant on group-free trees, and every
tree produced by translating a flat-dialect document from scratch satisfies
it. -/
theorem translator_key_uniqueness :
    (∀ (fe : EntryDecl) (t t' : List ContentNode),
      gfL t = true → uniqL t = true → readEntry fe t = .ok t' → uniqL t' = true) ∧
    (∀ (conf : List ConfElement) (t : List ContentNode),
      convertFromConf conf [] = .ok t → uniqL t = true) := by
  constructor
  · intro fe t t' hg hu h
    exact (readEntry_ok_inv fe t t' hg hu h).2.1
  · intro conf t h
    exact (convertFromConf_inv conf [] t rfl rfl h).2.1

/-- Witness for C9 at a concrete flat document with a nested and a plain
key. -/
theorem translator_key_uniqueness_witness :
    uniqL [ContentNode.node "a" [.entry "b" "int" none none []]] = true :=
  translator_key_uniqueness.2 [.entryE ⟨"a/b", "int", none, none⟩] _
    (by simp [convertFromConf, readEntry, insertResolved, resolve,
      show splitKey "a/b" = ["a", "b"] from rfl, stepChain, findCG, findCGAux, childrenAtN,
      getN, childrenOf, modifyN, appendChildF, withChildren, populateFun] <;> rfl)

/-! ### C6: the flat-dialect round trip -/

/-- C6 counterexample: re-deriving the dotted leaf-entry paths does not in
general reproduce the declared keys literally, and sibling order does not in
general follow declaration order.  A declared key `"a//b"` with an empty
segment yields the leaf path `"a/b"` — a different string — and in the
document `a/x, b, a` the promoted entry `a` keeps the position of the group
created for `a/x`, so the tree lists sibling `a` before `b` although `b` was
declared first. -/
theorem roundtrip_counterexample :
    (convertFromConf [.entryE ⟨"a//b", "t", none, none⟩] [] =
      .ok [.node "a" [.entry "b" "t" none none []]] ∧
    (entryPathsL [.node "a" [.entry "b" "t" none none []]]).map (String.intercalate "/") =
      ["a/b"] ∧
    declaredKeys [.entryE ⟨"a//b", "t", none, none⟩] = ["a//b"] ∧
    ("a/b" : String) ≠ "a//b") ∧
    convertFromConf [.entryE ⟨"a/x", "t", none, none⟩, .entryE ⟨"b", "t", none, none⟩,
        .entryE ⟨"a", "t", none, none⟩] [] =
      .ok [.entry "a" "t" none none [.entry "x" "t" none none []],
        .entry "b" "t" none none []] := by
  have hbindok : ∀ (x : List ContentNode)
      (f : List ContentNode → Except GenError (List ContentNode)),
      (Except.ok x : Except GenError (List ContentNode)) >>= f = f x := fun _ _ => rfl
  have h1 : readEntry ⟨"a/x", "t", none, none⟩ [] =
      .ok [.node "a" [.entry "x" "t" none none []]] := by
    simp [readEntry, insertResolved, resolve, show splitKey "a/x" = ["a", "x"] from rfl,
      stepChain, findCG, findCGAux, childrenAtN, getN, childrenOf, modifyN, appendChildF,
      withChildren, populateFun]
  have h2 : readEntry ⟨"b", "t", none, none⟩ [.node "a" [.entry "x" "t" none none []]] =
      .ok [.node "a" [.entry "x" "t" none none []], .entry "b" "t" none none []] := by
    simp [readEntry, insertResolved, resolve, show splitKey "b" = ["b"] from rfl,
      stepChain, findCG, findCGAux, childrenAtN, getN, childrenOf, modifyN, appendChildF,
      withChildren, populateFun]
  have h3 : readEntry ⟨"a", "t", none, none⟩
      [.node "a" [.entry "x" "t" none none []], .entry "b" "t" none none []] =
      .ok [.entry "a" "t" none none [.entry "x" "t" none none []],
        .entry "b" "t" none none []] := by
    simp [readEntry, insertResolved, resolve, show splitKey "a" = ["a"] from rfl,
      stepChain, findCG, findCGAux, childrenAtN, getN, childrenOf, modifyN, appendChildF,
      withChildren, populateFun, replaceNBE]
  refine ⟨⟨?_, by simp [entryPathsL, nodePaths]; rfl, by simp [declaredKeys], by decide⟩, ?_⟩
  · simp [convertFromConf, readEntry, insertResolved, resolve,
      show splitKey "a//b" = ["a", "b"] from rfl, stepChain, findCG, findCGAux, childrenAtN,
      getN, childrenOf, modifyN, appendChildF, withChildren, populateFun] <;> rfl
  · simp [convertFromConf, h1, h2, h3, hbindok]

/-- C6 (amended): for every flat-dialect document that translates without
error from an empty tree, the set of full dotted paths of the leaf entries of
the resulting node tree equals the set of declared entry keys, each
normalized by splitting on `/` and discarding empty segments (sibling order
may deviate from declaration order when an entry is promoted from an
earlier-created group). -/
lemma toFinset_map_list (f : List String → String) (l : List (List String)) :
    (l.map f).toFinset = l.toFinset.image f := by
  induction l with
  | nil => simp
  | cons a rest ih => simp [ih]

theorem flat_roundtrip_paths :
    ∀ (conf : List ConfElement) (t : List ContentNode),
      convertFromConf conf [] = .ok t →
      ((entryPathsL t).map (String.intercalate "/")).toFinset =
        ((declaredKeys conf).map normKey).toFinset := by
  intro conf t h
  obtain ⟨-, -, hp⟩ := convertFromConf_inv conf [] t rfl rfl h
  have hbase : (entryPathsL t).toFinset = ((declaredKeys conf).map splitKey).toFinset := by
    simpa using hp
  calc ((entryPathsL t).map (String.intercalate "/")).toFinset
      = (entryPathsL t).toFinset.image (String.intercalate "/") := toFinset_map_list _ _
    _ = (((declaredKeys conf).map splitKey).toFinset).image (String.intercalate "/") := by
        rw [hbase]
    _ = (((declaredKeys conf).map splitKey).map (String.intercalate "/")).toFinset :=
        (toFinset_map_list _ _).symm
    _ = ((declaredKeys conf).map normKey).toFinset := by
        rw [List.map_map]
        rfl

/-- Witness for C6 at a concrete category/section/entry document. -/
theorem flat_roundtrip_paths_witness :
    ((entryPathsL [ContentNode.node "s" [.entry "e" "int" none none []]]).map
        (String.intercalate "/")).toFinset =
      ((declaredKeys [ConfElement.categoryE [.sectionE [.entryE ⟨"s/e", "int", none, none⟩]]]).map
        normKey).toFinset :=
  flat_roundtrip_paths [.categoryE [.sectionE [.entryE ⟨"s/e", "int", none, none⟩]]] _
    (by simp [convertFromConf, readCategory, readSection, readEntry, insertResolved, resolve,
      show splitKey "s/e" = ["s", "e"] from rfl, stepChain, findCG, findCGAux, childrenAtN,
      getN, childrenOf, modifyN, appendChildF, withChildren, populateFun] <;> rfl)

end SettingsGen
